import Mathlib

/-!
Verification of the python-ndn client engine (src/ndn/app.py) and its
NDN NameComponent URI codec (src/ndn/encoding/name/Component.py).

Bytes are modelled as natural numbers below 256, byte strings as `List Nat`,
and Python `str` values as `List Char`.  Functions that can raise a Python
exception are modelled as `Option`- or `Except`-valued functions where any
uncaught exception is a failure result.
-/

namespace Ndn

/-! ## Character classes (Component.py `CHARSET`)

`CHARSET = ascii_letters + digits + {'-', '.', '_', '~', '=', '%'}`.
All predicates are stated over `Char.toNat` so that implications between
classes reduce to linear arithmetic. -/

/-- ASCII decimal digit, `string.digits`. -/
def isDigitB (c : Char) : Bool := 48 ≤ c.toNat && c.toNat ≤ 57

/-- ASCII letter, `string.ascii_letters`. -/
def isAlphaB (c : Char) : Bool :=
  (65 ≤ c.toNat && c.toNat ≤ 90) || (97 ≤ c.toNat && c.toNat ≤ 122)

/-- Hexadecimal digit as accepted by Python `int(_, 16)` / `bytearray.fromhex`. -/
def isHexDigitB (c : Char) : Bool :=
  isDigitB c || (97 ≤ c.toNat && c.toNat ≤ 102) || (65 ≤ c.toNat && c.toNat ≤ 70)

/-- Membership in Component.py's `CHARSET`: unreserved characters plus '=' and '%'. -/
def inCharset (c : Char) : Bool :=
  isAlphaB c || isDigitB c || c == '-' || c == '.' || c == '_' || c == '~' || c == '=' || c == '%'

/-- The URI unreserved set (letters, digits, '-', '.', '_', '~'):
`CHARSET` without '=' and '%'. -/
def unreservedB (c : Char) : Bool :=
  isAlphaB c || isDigitB c || c == '-' || c == '.' || c == '_' || c == '~'

/-- Numeric value of a hexadecimal digit. -/
def hexVal (c : Char) : Nat :=
  if isDigitB c then c.toNat - 48
  else if 97 ≤ c.toNat then c.toNat - 87
  else c.toNat - 55

/-- Lowercase hexadecimal digit character (used by Python `bytes.hex()`). -/
def hexLoChar (n : Nat) : Char := if n < 10 then Char.ofNat (48 + n) else Char.ofNat (87 + n)

/-- Uppercase hexadecimal digit character (used by `f"%{val:02X}"`). -/
def hexHiChar (n : Nat) : Char := if n < 10 then Char.ofNat (48 + n) else Char.ofNat (55 + n)

/-! ## Variable-width TLV numbers

Modelled from the spec: the `tlv_var` module (`write_tl_num`, `parse_tl_num`,
`get_tl_num_size`) is not under src/.  Spec section 4.1: values below 253
encode as one byte; otherwise a marker byte 253/254/255 is followed by a
2/4/8-byte big-endian value, using the smallest width that fits; the default
decoder is lenient and fails only when fewer bytes remain than the width
requires. -/

/-- Modelled from the spec: big-endian fixed-width byte encoding of `n`
(the multi-byte payload of a TLV number, spec section 4.1). -/
def beBytes : Nat → Nat → List Nat
  | 0, _ => []
  | w + 1, n => beBytes w (n / 256) ++ [n % 256]

/-- Big-endian value of a byte list. -/
def beVal (l : List Nat) : Nat := l.foldl (fun a b => a * 256 + b) 0

/-- Modelled from the spec: `get_tl_num_size` (spec section 4.1): width of the
encoding of a TLV number. -/
def getTlNumSize (n : Nat) : Nat :=
  if n ≤ 252 then 1 else if n ≤ 65535 then 3 else if n ≤ 4294967295 then 5 else 9

/-- Modelled from the spec: `write_tl_num` (spec section 4.1).  Values at or
below 252 are one byte; larger values get a marker byte and a minimal-width
big-endian payload.  (Python raises for values ≥ 2^64; callers guard.) -/
def writeTlNum (n : Nat) : List Nat :=
  if n ≤ 252 then [n]
  else if n ≤ 65535 then 253 :: beBytes 2 n
  else if n ≤ 4294967295 then 254 :: beBytes 4 n
  else 255 :: beBytes 8 n

/-- Modelled from the spec: `parse_tl_num` (spec section 4.1), lenient decoder.
Returns the value and the number of bytes consumed, or `none` when fewer bytes
remain than the marker requires. -/
def parseTlNum : List Nat → Option (Nat × Nat)
  | [] => none
  | b :: rest =>
    if b ≤ 252 then some (b, 1)
    else if b = 253 then
      if 2 ≤ rest.length then some (beVal (rest.take 2), 3) else none
    else if b = 254 then
      if 4 ≤ rest.length then some (beVal (rest.take 4), 5) else none
    else
      if 8 ≤ rest.length then some (beVal (rest.take 8), 9) else none

theorem beBytes_length (w n : Nat) : (beBytes w n).length = w := by
  induction w generalizing n with
  | zero => rfl
  | succ w ih => simp [beBytes, ih]

theorem beVal_append_one (l : List Nat) (b : Nat) :
    beVal (l ++ [b]) = beVal l * 256 + b := by
  simp [beVal, List.foldl_append]

theorem beVal_beBytes (w n : Nat) (h : n < 256 ^ w) : beVal (beBytes w n) = n := by
  induction w generalizing n with
  | zero =>
    interval_cases n
    rfl
  | succ w ih =>
    have hd : n / 256 < 256 ^ w := by
      rw [Nat.div_lt_iff_lt_mul (by norm_num : 0 < 256)]
      calc n < 256 ^ (w + 1) := h
        _ = 256 ^ w * 256 := by ring
    rw [beBytes, beVal_append_one, ih _ hd]
    have := Nat.div_add_mod n 256
    omega

theorem take_len_append (a b : List α) : (a ++ b).take a.length = a := by
  simp

theorem drop_len_append (a b : List α) : (a ++ b).drop a.length = b := by
  simp

theorem parseTlNum_writeTlNum (n : Nat) (h : n < 2 ^ 64) (rest : List Nat) :
    parseTlNum (writeTlNum n ++ rest) = some (n, (writeTlNum n).length) := by
  unfold writeTlNum
  split
  · next h1 => simp [parseTlNum, h1]
  · next h1 =>
    split
    · next h2 =>
      have hl : (beBytes 2 n).length = 2 := beBytes_length 2 n
      have ht := take_len_append (beBytes 2 n) rest
      rw [hl] at ht
      have hv := beVal_beBytes 2 n (by norm_num; omega)
      simp [parseTlNum, ht, hv, hl]
    · next h2 =>
      split
      · next h3 =>
        have hl : (beBytes 4 n).length = 4 := beBytes_length 4 n
        have ht := take_len_append (beBytes 4 n) rest
        rw [hl] at ht
        have hv := beVal_beBytes 4 n (by norm_num; omega)
        simp [parseTlNum, ht, hv, hl]
      · next h3 =>
        have hl : (beBytes 8 n).length = 8 := beBytes_length 8 n
        have ht := take_len_append (beBytes 8 n) rest
        rw [hl] at ht
        have hv := beVal_beBytes 8 n (by norm_num; omega)
        simp [parseTlNum, ht, hv, hl]

theorem writeTlNum_length (n : Nat) : (writeTlNum n).length = getTlNumSize n := by
  unfold writeTlNum getTlNumSize
  split
  · rfl
  · split
    · simp [beBytes_length]
    · split <;> simp [beBytes_length]

/-! ## Component.py: `from_bytes`, `to_str`, `from_str`

A Component is its TLV encoding: a `List Nat` of bytes. -/

/-- `Component.from_bytes`: wrap a value with TLV type and length
(src/ndn/encoding/name/Component.py, `from_bytes`). -/
def fromBytes (typ : Nat) (v : List Nat) : List Nat :=
  writeTlNum typ ++ writeTlNum v.length ++ v

/-- Count of a character in a string. -/
def countCh (c : Char) : List Char → Nat
  | [] => 0
  | a :: t => (if a = c then 1 else 0) + countCh c t

/-- Split a string at its first '='; `none` when there is no '='.
Models `type_offset` in `from_str`. -/
def splitEq : List Char → Option (List Char × List Char)
  | [] => none
  | a :: t =>
    if a = '=' then some ([], t)
    else (splitEq t).map (fun p => (a :: p.1, p.2))

/-- Decimal digits of a positive number, most significant first; `fuel`
bounds the recursion and any `fuel ≥ n` is enough. -/
def decCharsAux : Nat → Nat → List Char
  | 0, _ => []
  | fuel + 1, n =>
    if n = 0 then [] else decCharsAux fuel (n / 10) ++ [Char.ofNat (48 + n % 10)]

/-- Decimal digit string of a natural number, as Python `str(n)`
(so `decChars 0 = "0"`). -/
def decChars (n : Nat) : List Char :=
  if n = 0 then ['0'] else decCharsAux n n

/-- Digit-with-underscore tail accepted by Python `int(_)` after the first
digit: digits, with single underscores between digits. -/
def digitsUnd : List Char → Bool
  | [] => true
  | c :: t =>
    if c = '_' then
      match t with
      | [] => false
      | d :: t' => isDigitB d && digitsUnd t'
    else isDigitB c && digitsUnd t

/-- Shape check for Python `int(s)` on a sign-free string. -/
def pyIntOk (l : List Char) : Bool :=
  match l with
  | [] => false
  | c :: t => isDigitB c && digitsUnd t

/-- Value of a most-significant-first digit string (underscores removed). -/
def digitsVal (l : List Char) : Nat :=
  (l.filter (fun c => !(c == '_'))).foldl (fun a c => a * 10 + (c.toNat - 48)) 0

/-- Python `int(s)` on a `CHARSET` string: optional '-' sign, then digits with
single embedded underscores.  ('+' and whitespace cannot appear in `CHARSET`
input; other characters fail with `ValueError`.) -/
def pyParseInt (l : List Char) : Option Int :=
  match l with
  | [] => none
  | c :: t =>
    if c = '-' then if pyIntOk t then some (-(digitsVal t : Int)) else none
    else if pyIntOk (c :: t) then some (digitsVal (c :: t) : Int) else none

/-- Pairs-of-hex-digits shape accepted by `bytearray.fromhex` (whitespace is
also accepted by Python but cannot appear in `CHARSET`-checked input). -/
def hexPairsOk : List Char → Bool
  | [] => true
  | a :: b :: t => isHexDigitB a && isHexDigitB b && hexPairsOk t
  | _ :: [] => false

/-- Byte values of a hex-digit-pair string. -/
def hexDecodeV : List Char → List Nat
  | a :: b :: t => (hexVal a * 16 + hexVal b) :: hexDecodeV t
  | _ => []

/-- `bytearray.fromhex`: byte values, or failure on a malformed hex string. -/
def hexDecode (l : List Char) : Option (List Nat) :=
  if hexPairsOk l then some (hexDecodeV l) else none

/-- Lowercase hex rendering of a byte string, Python `bytes.hex()`. -/
def hexLower : List Nat → List Char
  | [] => []
  | b :: t => hexLoChar (b / 16) :: hexLoChar (b % 16) :: hexLower t

/-- The inner `decode` of `to_str`: a byte whose character is in `CHARSET`
and is neither '%' nor '=' passes through; every other byte renders as
`%XX` with uppercase hex. -/
def decodeByte (b : Nat) : List Char :=
  let c := Char.ofNat b
  if inCharset c && !(c == '%') && !(c == '=') then [c]
  else ['%', hexHiChar (b / 16), hexHiChar (b % 16)]

/-- URI rendering of a byte string, one `decodeByte` per byte. -/
def escapeBytes : List Nat → List Char
  | [] => []
  | b :: t => decodeByte b ++ escapeBytes t

/-- Bytes of `escapeBytes v` that render as escapes. -/
def escCount (v : List Nat) : Nat :=
  v.countP (fun b =>
    !(inCharset (Char.ofNat b) && !(Char.ofNat b == '%') && !(Char.ofNat b == '=')))

/-- The encode loop of `from_str`: scan the value part, writing one byte per
literal character and one byte per `%XX` escape into a zero-initialised
buffer of `cap` bytes.  Python `int(val[i+1:i+3], 16)` reads the (up to)
two characters after a '%'; a slice with a non-hex character or the empty
slice is a `ValueError`, and writing past the buffer is an `IndexError` —
both fail.  (A '-'-leading slice parses negative in Python and then fails
the byte-range check of the buffer write; also a failure.)  A one-character
hex slice at the end of the string parses in Python; the scan then continues
past the end of the string. -/
def encodeLoop : List Char → Nat → Option (List Nat)
  | [], cap => some (List.replicate cap 0)
  | c :: rest, cap =>
    if c = '%' then
      match rest with
      | [] => none
      | [a] =>
        if isHexDigitB a then
          if cap = 0 then none
          else (encodeLoop [] (cap - 1)).map (fun out => hexVal a :: out)
        else none
      | a :: b :: t =>
        if isHexDigitB a && isHexDigitB b then
          if cap = 0 then none
          else (encodeLoop t (cap - 1)).map (fun out => (hexVal a * 16 + hexVal b) :: out)
        else none
    else
      if cap = 0 then none
      else (encodeLoop rest (cap - 1)).map (fun out => c.toNat :: out)

/-- A '%' at a scan position of the value part that is not followed by two
hexadecimal digits: the "malformed percent-escape" of the spec. -/
def pctMalformed : List Char → Bool
  | [] => false
  | c :: rest =>
    if c = '%' then
      match rest with
      | a :: b :: t => if isHexDigitB a && isHexDigitB b then pctMalformed t else true
      | _ => true
    else pctMalformed rest

/-- Tail of `from_str` for the general (non-digest) case: check the computed
value length is non-negative, run the encode loop, and prepend the TLV type
and length.  `rest` is the value part, `pcnt` the '%' count of the whole
input. -/
def mkGeneral (typ : Nat) (rest : List Char) (pcnt : Nat) : Option (List Nat) :=
  if rest.length < 2 * pcnt then none
  else
    (encodeLoop rest (rest.length - 2 * pcnt)).map
      (fun v => writeTlNum typ ++ writeTlNum (rest.length - 2 * pcnt) ++ v)

/-- `Component.from_str` (src/ndn/encoding/name/Component.py): parse one URI
segment into a TLV-encoded Component.  Any Python exception (`ValueError`,
`IndexError`, `struct.error`) is `none`. -/
def fromStr (val : List Char) : Option (List Nat) :=
  if val = [] then some [8, 0]
  else if !val.all inCharset then none
  else if 2 ≤ countCh '=' val then none
  else
    let pcnt := countCh '%' val
    match splitEq val with
    | some (typStr, rest) =>
      if typStr = "sha256digest".toList then (hexDecode rest).map (fromBytes 1)
      else if typStr = "params-sha256".toList then (hexDecode rest).map (fromBytes 2)
      else
        match pyParseInt typStr with
        | none => none
        | some t =>
          if t < 0 ∨ (18446744073709551616 : Int) ≤ t then none
          else mkGeneral t.toNat rest pcnt
    | none => mkGeneral 8 val pcnt

/-- `Component.to_str` (src/ndn/encoding/name/Component.py): render a
TLV-encoded Component as a URI segment.  Digest types get the special
prefixes with lowercase hex, other non-generic types a decimal `<type>=`
marker; value bytes go through `decodeByte`. -/
def toStr (component : List Nat) : Option (List Char) :=
  match parseTlNum component with
  | none => none
  | some (typ, sz) =>
    match parseTlNum (component.drop sz) with
    | none => none
    | some (length, sz2) =>
      if component.length ≠ length + (sz + sz2) then none
      else
        let value := component.drop (sz + sz2)
        if typ = 1 then some ("sha256digest=".toList ++ hexLower value)
        else if typ = 2 then some ("params-sha256=".toList ++ hexLower value)
        else
          some ((if typ ≠ 8 then decChars typ ++ ['='] else []) ++ escapeBytes value)

/-! ## Character-class and list lemmas -/

set_option maxRecDepth 8192

theorem charToNat_ofNat : ∀ b, b < 256 → (Char.ofNat b).toNat = b := by decide

theorem hexLoChar_inCharset : ∀ n, n < 16 → inCharset (hexLoChar n) = true := by decide

theorem hexLoChar_isHex : ∀ n, n < 16 → isHexDigitB (hexLoChar n) = true := by decide

theorem hexLoChar_hexVal : ∀ n, n < 16 → hexVal (hexLoChar n) = n := by decide

theorem hexHiChar_isHex : ∀ n, n < 16 → isHexDigitB (hexHiChar n) = true := by decide

theorem hexHiChar_hexVal : ∀ n, n < 16 → hexVal (hexHiChar n) = n := by decide

theorem hexHiChar_inCharset : ∀ n, n < 16 → inCharset (hexHiChar n) = true := by decide

theorem isHexDigitB_alphaNum (c : Char) (h : isHexDigitB c = true) :
    (isAlphaB c || isDigitB c) = true := by
  simp only [isHexDigitB, isDigitB, isAlphaB, Bool.or_eq_true, Bool.and_eq_true,
    decide_eq_true_eq] at h ⊢
  omega

theorem isHexDigitB_inCharset (c : Char) (h : isHexDigitB c = true) :
    inCharset c = true := by
  have := isHexDigitB_alphaNum c h
  simp only [inCharset, Bool.or_eq_true, Bool.or_eq_true] at *
  tauto

theorem isHexDigitB_ne_eq (c : Char) (h : isHexDigitB c = true) : c ≠ '=' := by
  intro he
  subst he
  exact absurd h (by decide)

theorem isHexDigitB_ne_pct (c : Char) (h : isHexDigitB c = true) : c ≠ '%' := by
  intro he
  subst he
  exact absurd h (by decide)

theorem isDigitB_isHex (c : Char) (h : isDigitB c = true) : isHexDigitB c = true := by
  simp only [isHexDigitB, Bool.or_eq_true]
  tauto

theorem isDigitB_inCharset (c : Char) (h : isDigitB c = true) : inCharset c = true :=
  isHexDigitB_inCharset c (isDigitB_isHex c h)

theorem isDigitB_ne_eq (c : Char) (h : isDigitB c = true) : c ≠ '=' :=
  isHexDigitB_ne_eq c (isDigitB_isHex c h)

theorem isDigitB_ne_pct (c : Char) (h : isDigitB c = true) : c ≠ '%' :=
  isHexDigitB_ne_pct c (isDigitB_isHex c h)

theorem isDigitB_ne_dash (c : Char) (h : isDigitB c = true) : c ≠ '-' := by
  intro he
  subst he
  exact absurd h (by decide)

theorem isDigitB_ne_und (c : Char) (h : isDigitB c = true) : c ≠ '_' := by
  intro he
  subst he
  exact absurd h (by decide)

theorem countCh_append (c : Char) (a b : List Char) :
    countCh c (a ++ b) = countCh c a + countCh c b := by
  induction a with
  | nil => simp [countCh]
  | cons x t ih => simp [countCh, ih]; omega

theorem countCh_eq_zero (c : Char) (l : List Char) (h : ∀ x ∈ l, x ≠ c) :
    countCh c l = 0 := by
  induction l with
  | nil => rfl
  | cons x t ih =>
    have hx : x ≠ c := h x (by simp)
    simp only [countCh, if_neg hx, ih (fun y hy => h y (by simp [hy])), Nat.zero_add]

theorem ne_of_countCh_zero (c : Char) (l : List Char) (h : countCh c l = 0) :
    ∀ x ∈ l, x ≠ c := by
  induction l with
  | nil => simp
  | cons x t ih =>
    simp only [countCh] at h
    intro y hy
    rcases List.mem_cons.mp hy with rfl | hy'
    · intro he
      rw [if_pos he] at h
      omega
    · exact ih (by omega) y hy'

/-! ## Lemmas about `hexLower` and `hexDecode` -/

theorem hexLower_mem_isHex (v : List Nat) (hv : ∀ b ∈ v, b < 256) :
    ∀ c ∈ hexLower v, isHexDigitB c = true := by
  induction v with
  | nil => simp [hexLower]
  | cons b t ih =>
    have hb : b < 256 := hv b (by simp)
    intro c hc
    simp only [hexLower, List.mem_cons] at hc
    rcases hc with rfl | hc
    · exact hexLoChar_isHex _ (by omega)
    · rcases hc with rfl | hc
      · exact hexLoChar_isHex _ (by omega)
      · exact ih (fun x hx => hv x (by simp [hx])) c hc

theorem hexLower_all_inCharset (v : List Nat) (hv : ∀ b ∈ v, b < 256) :
    (hexLower v).all inCharset = true := by
  rw [List.all_eq_true]
  exact fun c hc => isHexDigitB_inCharset c (hexLower_mem_isHex v hv c hc)

theorem hexLower_countEq (v : List Nat) (hv : ∀ b ∈ v, b < 256) :
    countCh '=' (hexLower v) = 0 :=
  countCh_eq_zero _ _ (fun c hc => isHexDigitB_ne_eq c (hexLower_mem_isHex v hv c hc))

theorem hexLower_countPct (v : List Nat) (hv : ∀ b ∈ v, b < 256) :
    countCh '%' (hexLower v) = 0 :=
  countCh_eq_zero _ _ (fun c hc => isHexDigitB_ne_pct c (hexLower_mem_isHex v hv c hc))

theorem hexDecode_hexLower (v : List Nat) (hv : ∀ b ∈ v, b < 256) :
    hexDecode (hexLower v) = some v := by
  have key : ∀ v, (∀ b ∈ v, b < 256) →
      hexPairsOk (hexLower v) = true ∧ hexDecodeV (hexLower v) = v := by
    intro v hv
    induction v with
    | nil => exact ⟨rfl, rfl⟩
    | cons b t ih =>
      have hb : b < 256 := hv b (by simp)
      obtain ⟨h1, h2⟩ := ih (fun x hx => hv x (by simp [hx]))
      constructor
      · simp only [hexLower, hexPairsOk, Bool.and_eq_true]
        exact ⟨⟨hexLoChar_isHex _ (by omega), hexLoChar_isHex _ (by omega)⟩, h1⟩
      · simp only [hexLower, hexDecodeV, h2, List.cons.injEq, and_true]
        rw [hexLoChar_hexVal _ (by omega), hexLoChar_hexVal _ (by omega)]
        omega
  obtain ⟨h1, h2⟩ := key v hv
  simp [hexDecode, h1, h2]

/-! ## Lemmas about `escapeBytes` and the encode loop -/

/-- The guard of `decodeByte`: true when the byte passes through literally. -/
def litByte (b : Nat) : Bool :=
  inCharset (Char.ofNat b) && !(Char.ofNat b == '%') && !(Char.ofNat b == '=')

theorem decodeByte_lit (b : Nat) (h : litByte b = true) : decodeByte b = [Char.ofNat b] := by
  unfold decodeByte
  simp only [litByte] at h
  rw [if_pos h]

theorem decodeByte_esc (b : Nat) (h : litByte b = false) :
    decodeByte b = ['%', hexHiChar (b / 16), hexHiChar (b % 16)] := by
  unfold decodeByte
  simp only [litByte] at h
  rw [if_neg (by simp [h])]

theorem escCount_eq (v : List Nat) : escCount v = v.countP (fun b => !litByte b) := rfl

theorem escCount_cons (b : Nat) (t : List Nat) :
    escCount (b :: t) = (if litByte b then 0 else 1) + escCount t := by
  simp only [escCount_eq, List.countP_cons]
  split <;> simp_all <;> omega

theorem litByte_char_facts (b : Nat) (hb : b < 256) (h : litByte b = true) :
    inCharset (Char.ofNat b) = true ∧ Char.ofNat b ≠ '%' ∧ Char.ofNat b ≠ '=' := by
  simp only [litByte, Bool.and_eq_true, Bool.not_eq_true', beq_eq_false_iff_ne, ne_eq] at h
  exact ⟨h.1.1, h.1.2, h.2⟩

theorem escapeBytes_all_inCharset (v : List Nat) (hv : ∀ b ∈ v, b < 256) :
    (escapeBytes v).all inCharset = true := by
  induction v with
  | nil => rfl
  | cons b t ih =>
    have hb : b < 256 := hv b (by simp)
    have iht := ih (fun x hx => hv x (by simp [hx]))
    simp only [escapeBytes, List.all_append, Bool.and_eq_true]
    refine ⟨?_, iht⟩
    by_cases h : litByte b
    · rw [decodeByte_lit b h]
      simp [List.all_cons, (litByte_char_facts b hb h).1]
    · rw [decodeByte_esc b (by simp_all)]
      simp [List.all_cons, hexHiChar_inCharset _ (by omega : b / 16 < 16),
        hexHiChar_inCharset _ (by omega : b % 16 < 16)]
      decide

theorem escapeBytes_countEq (v : List Nat) (hv : ∀ b ∈ v, b < 256) :
    countCh '=' (escapeBytes v) = 0 := by
  induction v with
  | nil => rfl
  | cons b t ih =>
    have hb : b < 256 := hv b (by simp)
    have iht := ih (fun x hx => hv x (by simp [hx]))
    simp only [escapeBytes, countCh_append, iht, Nat.add_zero]
    by_cases h : litByte b
    · rw [decodeByte_lit b h]
      simp [countCh, (litByte_char_facts b hb h).2.2]
    · rw [decodeByte_esc b (by simp_all)]
      simp [countCh, hexHiChar_isHex, isHexDigitB_ne_eq _ (hexHiChar_isHex _ (by omega : b / 16 < 16)),
        isHexDigitB_ne_eq _ (hexHiChar_isHex _ (by omega : b % 16 < 16))]

theorem escapeBytes_countPct (v : List Nat) (hv : ∀ b ∈ v, b < 256) :
    countCh '%' (escapeBytes v) = escCount v := by
  induction v with
  | nil => rfl
  | cons b t ih =>
    have hb : b < 256 := hv b (by simp)
    have iht := ih (fun x hx => hv x (by simp [hx]))
    simp only [escapeBytes, countCh_append, iht, escCount_cons]
    by_cases h : litByte b
    · rw [decodeByte_lit b h, if_pos h]
      simp [countCh, (litByte_char_facts b hb h).2.1]
    · rw [decodeByte_esc b (by simp_all), if_neg h]
      simp [countCh, isHexDigitB_ne_pct _ (hexHiChar_isHex _ (by omega : b / 16 < 16)),
        isHexDigitB_ne_pct _ (hexHiChar_isHex _ (by omega : b % 16 < 16))]

theorem escapeBytes_length (v : List Nat) :
    (escapeBytes v).length = v.length + 2 * escCount v := by
  induction v with
  | nil => rfl
  | cons b t ih =>
    simp only [escapeBytes, List.length_append, ih, escCount_cons, List.length_cons]
    by_cases h : litByte b
    · rw [decodeByte_lit b h, if_pos h]
      simp; omega
    · rw [decodeByte_esc b (by simp_all), if_neg h]
      simp; omega

theorem encodeLoop_cons_lit (c : Char) (rest : List Char) (cap : Nat) (hc : c ≠ '%') :
    encodeLoop (c :: rest) (cap + 1)
      = (encodeLoop rest cap).map (fun out => c.toNat :: out) := by
  match rest with
  | [] => simp [encodeLoop.eq_2, hc]
  | [a] => simp [encodeLoop.eq_3, hc]
  | a :: b :: t => simp [encodeLoop.eq_4, hc]

theorem encodeLoop_cons_lit_zero (c : Char) (rest : List Char) (hc : c ≠ '%') :
    encodeLoop (c :: rest) 0 = none := by
  match rest with
  | [] => simp [encodeLoop.eq_2, hc]
  | [a] => simp [encodeLoop.eq_3, hc]
  | a :: b :: t => simp [encodeLoop.eq_4, hc]

theorem encodeLoop_cons_esc (a b : Char) (t : List Char) (cap : Nat)
    (ha : isHexDigitB a = true) (hb : isHexDigitB b = true) :
    encodeLoop ('%' :: a :: b :: t) (cap + 1)
      = (encodeLoop t cap).map (fun out => (hexVal a * 16 + hexVal b) :: out) := by
  simp [encodeLoop.eq_4, ha, hb]

theorem encodeLoop_escapeBytes (v : List Nat) (hv : ∀ b ∈ v, b < 256) :
    encodeLoop (escapeBytes v) v.length = some v := by
  induction v with
  | nil => rfl
  | cons b t ih =>
    have hb : b < 256 := hv b (by simp)
    have iht := ih (fun x hx => hv x (by simp [hx]))
    by_cases h : litByte b
    · obtain ⟨hc, hp, he⟩ := litByte_char_facts b hb h
      rw [show escapeBytes (b :: t) = Char.ofNat b :: escapeBytes t by
        simp [escapeBytes, decodeByte_lit b h]]
      rw [List.length_cons, encodeLoop_cons_lit _ _ _ hp, iht, Option.map_some',
        charToNat_ofNat b hb]
    · have h16a : b / 16 < 16 := by omega
      have h16b : b % 16 < 16 := by omega
      rw [show escapeBytes (b :: t) =
          '%' :: hexHiChar (b / 16) :: hexHiChar (b % 16) :: escapeBytes t by
        simp [escapeBytes, decodeByte_esc b (by simp_all)]]
      rw [List.length_cons,
        encodeLoop_cons_esc _ _ _ _ (hexHiChar_isHex _ h16a) (hexHiChar_isHex _ h16b),
        iht, Option.map_some', hexHiChar_hexVal _ h16a, hexHiChar_hexVal _ h16b]
      have hbe : b / 16 * 16 + b % 16 = b := by omega
      rw [hbe]

theorem encodeLoop_literal (l : List Char) (h : ∀ c ∈ l, c ≠ '%') :
    encodeLoop l l.length = some (l.map Char.toNat) := by
  induction l with
  | nil => rfl
  | cons c t ih =>
    have hc : c ≠ '%' := h c (by simp)
    rw [List.length_cons, encodeLoop_cons_lit _ _ _ hc,
      ih (fun x hx => h x (by simp [hx])), Option.map_some', List.map_cons]

/-! ## Lemmas about `splitEq`, `decChars` and `pyParseInt` -/

theorem splitEq_append (a b : List Char) (h : countCh '=' a = 0) :
    splitEq (a ++ '=' :: b) = some (a, b) := by
  induction a with
  | nil => simp [splitEq]
  | cons x t ih =>
    have hx : x ≠ '=' := ne_of_countCh_zero '=' (x :: t) h x (by simp)
    have ht : countCh '=' t = 0 := by
      simp only [countCh, if_neg hx] at h
      omega
    simp [splitEq, hx, ih ht]

theorem splitEq_none (l : List Char) (h : countCh '=' l = 0) : splitEq l = none := by
  induction l with
  | nil => rfl
  | cons x t ih =>
    have hx : x ≠ '=' := ne_of_countCh_zero '=' (x :: t) h x (by simp)
    have ht : countCh '=' t = 0 := by
      simp only [countCh, if_neg hx] at h
      omega
    simp [splitEq, hx, ih ht]

theorem splitEq_some (l a b : List Char) (h : splitEq l = some (a, b)) :
    l = a ++ '=' :: b := by
  induction l generalizing a b with
  | nil => simp [splitEq] at h
  | cons x t ih =>
    by_cases hx : x = '='
    · subst hx
      simp [splitEq] at h
      obtain ⟨h1, h2⟩ := h
      subst h1
      subst h2
      rfl
    · simp only [splitEq, if_neg hx] at h
      match hs : splitEq t with
      | none => rw [hs] at h; simp at h
      | some (a', b') =>
        rw [hs] at h
        simp only [Option.map_some', Option.some.injEq, Prod.mk.injEq] at h
        obtain ⟨h1, h2⟩ := h
        subst h1
        subst h2
        rw [List.cons_append, ih a' b' hs]

theorem decCharsAux_zero (fuel : Nat) : decCharsAux fuel 0 = [] := by
  cases fuel <;> simp [decCharsAux]

theorem decCharsAux_spec (fuel : Nat) : ∀ n, 0 < n → n ≤ fuel →
    (∀ c ∈ decCharsAux fuel n, isDigitB c = true) ∧ decCharsAux fuel n ≠ [] ∧
      (decCharsAux fuel n).foldl (fun a c => a * 10 + (c.toNat - 48)) 0 = n := by
  induction fuel with
  | zero => intro n h1 h2; omega
  | succ fuel ih =>
    intro n h1 h2
    have hch : (Char.ofNat (48 + n % 10)).toNat = 48 + n % 10 :=
      charToNat_ofNat _ (by omega)
    have hdig : isDigitB (Char.ofNat (48 + n % 10)) = true := by
      simp only [isDigitB, hch, Bool.and_eq_true, decide_eq_true_eq]
      omega
    by_cases hn : n < 10
    · have hq : n / 10 = 0 := by omega
      rw [decCharsAux, if_neg (by omega), hq, decCharsAux_zero]
      refine ⟨?_, by simp, ?_⟩
      · intro c hc
        simp only [List.nil_append, List.mem_singleton] at hc
        subst hc
        exact hdig
      · simp only [List.nil_append, List.foldl_cons, List.foldl_nil, hch]
        omega
    · have hq1 : 0 < n / 10 := by omega
      have hq2 : n / 10 ≤ fuel := by
        have := Nat.div_lt_self h1 (by norm_num : 1 < 10)
        omega
      obtain ⟨ihm, ihne, ihv⟩ := ih (n / 10) hq1 hq2
      rw [decCharsAux, if_neg (by omega)]
      refine ⟨?_, by simp, ?_⟩
      · intro c hc
        rcases List.mem_append.mp hc with hc | hc
        · exact ihm c hc
        · simp only [List.mem_singleton] at hc
          subst hc
          exact hdig
      · rw [List.foldl_append, ihv]
        simp only [List.foldl_cons, List.foldl_nil, hch]
        omega

theorem decChars_digits (n : Nat) : ∀ c ∈ decChars n, isDigitB c = true := by
  unfold decChars
  split
  · intro c hc
    simp only [List.mem_singleton] at hc
    subst hc
    decide
  · next h => exact (decCharsAux_spec n n (by omega) le_rfl).1

theorem decChars_ne_nil (n : Nat) : decChars n ≠ [] := by
  unfold decChars
  split
  · simp
  · next h => exact (decCharsAux_spec n n (by omega) le_rfl).2.1

theorem filter_no_und (l : List Char) (h : ∀ c ∈ l, isDigitB c = true) :
    l.filter (fun c => !(c == '_')) = l := by
  induction l with
  | nil => rfl
  | cons c t ih =>
    have hc : c ≠ '_' := isDigitB_ne_und c (h c (by simp))
    rw [List.filter_cons, if_pos (by simp [hc]), ih (fun x hx => h x (by simp [hx]))]

theorem digitsVal_digits (l : List Char) (h : ∀ c ∈ l, isDigitB c = true) :
    digitsVal l = l.foldl (fun a c => a * 10 + (c.toNat - 48)) 0 := by
  unfold digitsVal
  rw [filter_no_und l h]

theorem digitsVal_decChars (n : Nat) : digitsVal (decChars n) = n := by
  rw [digitsVal_digits _ (decChars_digits n)]
  unfold decChars
  split
  · next h => subst h; decide
  · next h => exact (decCharsAux_spec n n (by omega) le_rfl).2.2

theorem digitsUnd_of_digits (l : List Char) (h : ∀ c ∈ l, isDigitB c = true) :
    digitsUnd l = true := by
  induction l with
  | nil => rfl
  | cons c t ih =>
    have hc : c ≠ '_' := isDigitB_ne_und c (h c (by simp))
    have hd : isDigitB c = true := h c (by simp)
    have ht := ih (fun x hx => h x (by simp [hx]))
    cases t with
    | nil => simp [digitsUnd, hc, hd]
    | cons d t' => simp [digitsUnd, hc, hd, ht]

theorem pyIntOk_digits (l : List Char) (hne : l ≠ []) (h : ∀ c ∈ l, isDigitB c = true) :
    pyIntOk l = true := by
  cases l with
  | nil => exact absurd rfl hne
  | cons c t =>
    simp only [pyIntOk, Bool.and_eq_true]
    exact ⟨h c (by simp), digitsUnd_of_digits t (fun x hx => h x (by simp [hx]))⟩

theorem pyParseInt_digits (d : List Char) (hne : d ≠ []) (hd : ∀ c ∈ d, isDigitB c = true) :
    pyParseInt d = some ((digitsVal d : Nat) : Int) := by
  cases d with
  | nil => exact absurd rfl hne
  | cons c t =>
    have hc : c ≠ '-' := isDigitB_ne_dash c (hd c (by simp))
    simp only [pyParseInt, if_neg hc, pyIntOk_digits (c :: t) (by simp) hd, if_pos rfl]
    rfl

/-! ## Failure lemmas: malformed percent-escapes -/

theorem pctMalformed_cons_ne (c : Char) (rest : List Char) (hc : c ≠ '%') :
    pctMalformed (c :: rest) = pctMalformed rest := by
  match rest with
  | [] => rw [pctMalformed.eq_3 c [] (by intro a b t h; exact absurd h (by simp)), if_neg hc]
  | [a] => rw [pctMalformed.eq_3 c [a] (by intro x y t h; exact absurd h (by simp)), if_neg hc]
  | a :: b :: t => rw [pctMalformed.eq_2, if_neg hc]

theorem pctMalformed_mem (l : List Char) (h : pctMalformed l = true) : '%' ∈ l := by
  induction l using pctMalformed.induct with
  | case1 => simp [pctMalformed] at h
  | case2 a b t hab ih => simp
  | case3 a b t hab => simp
  | case4 rest hshape => simp
  | case5 c rest hc ih =>
    rw [pctMalformed_cons_ne c rest hc] at h
    simp [ih h]

theorem hexPairsOk_false (l : List Char) (c : Char) (hc : c ∈ l)
    (hnc : isHexDigitB c = false) : hexPairsOk l = false := by
  induction l using hexPairsOk.induct with
  | case1 => simp at hc
  | case2 a b t ih =>
    rcases List.mem_cons.mp hc with rfl | hc'
    · simp [hexPairsOk, hnc]
    · rcases List.mem_cons.mp hc' with rfl | hc''
      · simp [hexPairsOk, hnc]
      · simp only [hexPairsOk, Bool.and_eq_true]
        rw [ih hc'']
        simp
  | case3 a => simp [hexPairsOk]

theorem encodeLoop_malformed (l : List Char) :
    pctMalformed l = true →
    ∀ cap, cap + 2 * countCh '%' l ≤ l.length → encodeLoop l cap = none := by
  induction l using pctMalformed.induct with
  | case1 => intro h; simp [pctMalformed] at h
  | case2 a b t hab ih =>
    intro hm cap hcap
    obtain ⟨ha, hb⟩ := Bool.and_eq_true_iff.mp hab
    have hmt : pctMalformed t = true := by
      rw [pctMalformed.eq_2, if_pos rfl, if_pos hab] at hm
      exact hm
    have hna : a ≠ '%' := isHexDigitB_ne_pct a ha
    have hnb : b ≠ '%' := isHexDigitB_ne_pct b hb
    have hcnt : countCh '%' ('%' :: a :: b :: t) = 1 + countCh '%' t := by
      simp [countCh, hna, hnb]
    rw [hcnt] at hcap
    simp only [List.length_cons] at hcap
    cases cap with
    | zero => simp [encodeLoop.eq_4, hab]
    | succ k =>
      rw [encodeLoop_cons_esc a b t k ha hb,
        ih hmt k (by omega), Option.map_none']
  | case3 a b t hab =>
    intro hm cap hcap
    cases cap <;> simp [encodeLoop.eq_4, hab]
  | case4 rest hshape =>
    intro hm cap hcap
    match rest, hshape with
    | [], _ => simp [encodeLoop.eq_2]
    | [a], _ =>
      by_cases ha : isHexDigitB a = true
      · have hna : a ≠ '%' := isHexDigitB_ne_pct a ha
        have hcnt : countCh '%' ['%', a] = 1 := by simp [countCh, hna]
        rw [hcnt] at hcap
        simp only [List.length_cons, List.length_nil] at hcap
        have hc0 : cap = 0 := by omega
        subst hc0
        simp [encodeLoop.eq_3, ha]
      · simp [encodeLoop.eq_3, ha]
    | a :: b :: t, hs => exact (hs a b t rfl).elim
  | case5 c rest hc ih =>
    intro hm cap hcap
    have hmr : pctMalformed rest = true := by
      rw [pctMalformed_cons_ne c rest hc] at hm
      exact hm
    have hcnt : countCh '%' (c :: rest) = countCh '%' rest := by
      simp [countCh, hc]
    rw [hcnt] at hcap
    simp only [List.length_cons] at hcap
    cases cap with
    | zero => exact encodeLoop_cons_lit_zero c rest hc
    | succ k =>
      rw [encodeLoop_cons_lit c rest k hc, ih hmr k (by omega), Option.map_none']

/-! ## Evaluation lemmas for `fromStr` and `toStr` -/

theorem fromStr_eval_split (pre rest : List Char)
    (hpc : pre.all inCharset = true) (hpe : countCh '=' pre = 0)
    (hrc : rest.all inCharset = true) (hre : countCh '=' rest = 0) :
    fromStr (pre ++ '=' :: rest) =
      (if pre = "sha256digest".toList then (hexDecode rest).map (fromBytes 1)
       else if pre = "params-sha256".toList then (hexDecode rest).map (fromBytes 2)
       else
         match pyParseInt pre with
         | none => none
         | some t =>
           if t < 0 ∨ (18446744073709551616 : Int) ≤ t then none
           else mkGeneral t.toNat rest (countCh '%' (pre ++ '=' :: rest))) := by
  have hne : pre ++ '=' :: rest ≠ [] := by
    intro h
    have := congrArg List.length h
    simp at this
  have hall : (pre ++ '=' :: rest).all inCharset = true := by
    simp only [List.all_append, List.all_cons, hpc, hrc, Bool.and_true, Bool.true_and]
    decide
  have hcnt : countCh '=' (pre ++ '=' :: rest) = 1 := by
    rw [countCh_append, hpe]
    simp [countCh, hre]
  have hsp : splitEq (pre ++ '=' :: rest) = some (pre, rest) := splitEq_append pre rest hpe
  rw [fromStr, if_neg hne, if_neg (by simp [hall]), if_neg (by omega), hsp]

theorem fromStr_sha (rest : List Char)
    (hrc : rest.all inCharset = true) (hre : countCh '=' rest = 0) :
    fromStr ("sha256digest".toList ++ '=' :: rest) = (hexDecode rest).map (fromBytes 1) := by
  rw [fromStr_eval_split _ rest (by decide) (by decide) hrc hre, if_pos rfl]

theorem fromStr_params (rest : List Char)
    (hrc : rest.all inCharset = true) (hre : countCh '=' rest = 0) :
    fromStr ("params-sha256".toList ++ '=' :: rest) = (hexDecode rest).map (fromBytes 2) := by
  rw [fromStr_eval_split _ rest (by decide) (by decide) hrc hre,
    if_neg (by decide), if_pos rfl]

theorem fromStr_typNum (d rest : List Char)
    (hd : ∀ c ∈ d, isDigitB c = true) (hne : d ≠ [])
    (hrc : rest.all inCharset = true) (hre : countCh '=' rest = 0)
    (hlt : digitsVal d < 2 ^ 64) :
    fromStr (d ++ '=' :: rest) = mkGeneral (digitsVal d) rest (countCh '%' rest) := by
  have hd1 : d ≠ "sha256digest".toList := by
    intro h
    subst h
    exact absurd (hd 's' (by decide)) (by decide)
  have hd2 : d ≠ "params-sha256".toList := by
    intro h
    subst h
    exact absurd (hd 'p' (by decide)) (by decide)
  have hdc : d.all inCharset = true := by
    rw [List.all_eq_true]
    exact fun c hc => isDigitB_inCharset c (hd c hc)
  have hde : countCh '=' d = 0 := countCh_eq_zero _ _ (fun c hc => isDigitB_ne_eq c (hd c hc))
  have hdp : countCh '%' d = 0 := countCh_eq_zero _ _ (fun c hc => isDigitB_ne_pct c (hd c hc))
  rw [fromStr_eval_split d rest hdc hde hrc hre, if_neg hd1, if_neg hd2,
    pyParseInt_digits d hne hd]
  have hguard : ¬((digitsVal d : Int) < 0 ∨ (18446744073709551616 : Int) ≤ (digitsVal d : Int)) := by
    push_cast
    omega
  show (if (digitsVal d : Int) < 0 ∨ (18446744073709551616 : Int) ≤ (digitsVal d : Int)
      then none
      else mkGeneral ((digitsVal d : Int)).toNat rest (countCh '%' (d ++ '=' :: rest)))
    = mkGeneral (digitsVal d) rest (countCh '%' rest)
  rw [if_neg hguard]
  have hcnt : countCh '%' (d ++ '=' :: rest) = countCh '%' rest := by
    rw [countCh_append, hdp]
    simp [countCh]
  rw [hcnt]
  norm_num

theorem fromStr_noEq (rest : List Char) (hne : rest ≠ [])
    (hrc : rest.all inCharset = true) (hre : countCh '=' rest = 0) :
    fromStr rest = mkGeneral 8 rest (countCh '%' rest) := by
  rw [fromStr, if_neg hne, if_neg (by simp [hrc]), if_neg (by omega), splitEq_none rest hre]

theorem mkGeneral_literal (typ : Nat) (rest : List Char) (hnp : countCh '%' rest = 0) :
    mkGeneral typ rest (countCh '%' rest) = some (fromBytes typ (rest.map Char.toNat)) := by
  rw [hnp]
  unfold mkGeneral
  rw [if_neg (by omega)]
  rw [Nat.mul_zero, Nat.sub_zero, encodeLoop_literal rest (ne_of_countCh_zero '%' rest hnp)]
  simp [fromBytes]

theorem mkGeneral_escaped (typ : Nat) (v : List Nat) (hv : ∀ b ∈ v, b < 256) :
    mkGeneral typ (escapeBytes v) (countCh '%' (escapeBytes v)) = some (fromBytes typ v) := by
  rw [escapeBytes_countPct v hv]
  unfold mkGeneral
  have hlen := escapeBytes_length v
  rw [if_neg (by omega)]
  have hsub : (escapeBytes v).length - 2 * escCount v = v.length := by omega
  rw [hsub, encodeLoop_escapeBytes v hv]
  simp [fromBytes]

theorem toStr_fromBytes (typ : Nat) (v : List Nat) (htyp : typ < 2 ^ 64)
    (hlen : v.length < 2 ^ 64) :
    toStr (fromBytes typ v) =
      if typ = 1 then some ("sha256digest=".toList ++ hexLower v)
      else if typ = 2 then some ("params-sha256=".toList ++ hexLower v)
      else some ((if typ ≠ 8 then decChars typ ++ ['='] else []) ++ escapeBytes v) := by
  have h1 : parseTlNum (fromBytes typ v) = some (typ, (writeTlNum typ).length) := by
    rw [fromBytes, List.append_assoc]
    exact parseTlNum_writeTlNum typ htyp _
  have hdrop1 : (fromBytes typ v).drop (writeTlNum typ).length = writeTlNum v.length ++ v := by
    rw [fromBytes, List.append_assoc]
    exact drop_len_append _ _
  have h2 : parseTlNum ((fromBytes typ v).drop (writeTlNum typ).length)
      = some (v.length, (writeTlNum v.length).length) := by
    rw [hdrop1]
    exact parseTlNum_writeTlNum _ hlen _
  have hlen_eq : (fromBytes typ v).length
      = v.length + ((writeTlNum typ).length + (writeTlNum v.length).length) := by
    simp [fromBytes]
    omega
  have hdrop2 : (fromBytes typ v).drop
      ((writeTlNum typ).length + (writeTlNum v.length).length) = v := by
    have h := drop_len_append (writeTlNum typ ++ writeTlNum v.length) v
    rw [List.length_append] at h
    rw [fromBytes]
    exact h
  rw [toStr, h1]
  simp only [h2, hlen_eq, hdrop2]
  rw [if_neg (by omega)]

theorem hexPairsOk_all_hex (l : List Char) (h : hexPairsOk l = true) :
    ∀ c ∈ l, isHexDigitB c = true := by
  induction l using hexPairsOk.induct with
  | case1 => simp
  | case2 a b t ih =>
    simp only [hexPairsOk, Bool.and_eq_true] at h
    intro c hc
    rcases List.mem_cons.mp hc with rfl | hc'
    · exact h.1.1
    · rcases List.mem_cons.mp hc' with rfl | hc''
      · exact h.1.2
      · exact ih h.2 c hc''
  | case3 a => simp [hexPairsOk] at h

theorem hexDecode_none_of_malformed (rest : List Char) (hm : pctMalformed rest = true) :
    hexDecode rest = none := by
  have hmem := pctMalformed_mem rest hm
  rw [hexDecode, hexPairsOk_false rest '%' hmem (by decide)]
  simp

theorem mkGeneral_malformed (typ : Nat) (rest : List Char) (pcnt : Nat)
    (hm : pctMalformed rest = true) (hge : countCh '%' rest ≤ pcnt) :
    mkGeneral typ rest pcnt = none := by
  unfold mkGeneral
  by_cases hlt : rest.length < 2 * pcnt
  · rw [if_pos hlt]
  · rw [if_neg hlt, encodeLoop_malformed rest hm _ (by omega), Option.map_none']

theorem escapeBytes_ne_nil (v : List Nat) (hv : v ≠ []) : escapeBytes v ≠ [] := by
  cases v with
  | nil => exact absurd rfl hv
  | cons b t =>
    simp only [escapeBytes]
    by_cases h : litByte b
    · rw [decodeByte_lit b h]
      simp
    · rw [decodeByte_esc b (by simp_all)]
      simp

/-- The part of a URI segment after the first '=' (the whole segment when
there is no '='): the value part scanned by `from_str`'s encode loop. -/
def afterEqPart (val : List Char) : List Char :=
  match splitEq val with
  | some p => p.2
  | none => val

theorem litByte_eq_unreserved (b : Nat) : litByte b = unreservedB (Char.ofNat b) := by
  by_cases hp : Char.ofNat b = '%'
  · rw [litByte, hp]
    decide
  · by_cases he : Char.ofNat b = '='
    · rw [litByte, he]
      decide
    · have h1 : (Char.ofNat b == '%') = false := by simp [hp]
      have h2 : (Char.ofNat b == '=') = false := by simp [he]
      simp only [litByte, h1, h2, Bool.not_false, Bool.and_true, inCharset, unreservedB,
        Bool.or_assoc]
      simp

/-! ## Claim C4 -/

/-- Claim C4 (confirmed): for every canonically TLV-encoded Component
`fromBytes typ v` (minimal-width type and length, value bytes below 256,
encodable lengths), `fromStr (toStr c) = c` byte for byte; the zero-length
generic component renders as the empty string and parses back; `toStr`
renders the two digest types as `sha256digest=` / `params-sha256=` with
lowercase hex, renders any other non-generic type as a decimal `<type>=`
marker, and renders every byte outside the unreserved set as an uppercase
`%XX` escape. -/
theorem c4_component_roundtrip :
    (∀ typ v, typ < 2 ^ 64 → v.length < 2 ^ 64 → (∀ b ∈ v, b < 256) →
      (toStr (fromBytes typ v)).bind fromStr = some (fromBytes typ v))
    ∧ (toStr (fromBytes 8 []) = some [] ∧ fromStr [] = some (fromBytes 8 []))
    ∧ (∀ v, v.length < 2 ^ 64 → (∀ b ∈ v, b < 256) →
      toStr (fromBytes 1 v) = some ("sha256digest=".toList ++ hexLower v))
    ∧ (∀ v, v.length < 2 ^ 64 → (∀ b ∈ v, b < 256) →
      toStr (fromBytes 2 v) = some ("params-sha256=".toList ++ hexLower v))
    ∧ (∀ typ v, typ < 2 ^ 64 → v.length < 2 ^ 64 → typ ≠ 1 → typ ≠ 2 → typ ≠ 8 →
      toStr (fromBytes typ v) = some ((decChars typ ++ ['=']) ++ escapeBytes v))
    ∧ (∀ b, b < 256 → unreservedB (Char.ofNat b) = false →
      decodeByte b = ['%', hexHiChar (b / 16), hexHiChar (b % 16)]) := by
  have hsha : ("sha256digest=".toList : List Char) = "sha256digest".toList ++ ['='] := by
    decide
  have hpar : ("params-sha256=".toList : List Char) = "params-sha256".toList ++ ['='] := by
    decide
  refine ⟨?_, ⟨by decide, by decide⟩, ?_, ?_, ?_, ?_⟩
  · intro typ v htyp hvlen hv
    rw [toStr_fromBytes typ v htyp hvlen]
    by_cases h1 : typ = 1
    · subst h1
      rw [if_pos rfl, hsha, List.append_assoc, List.singleton_append, Option.some_bind,
        fromStr_sha _ (hexLower_all_inCharset v hv) (hexLower_countEq v hv),
        hexDecode_hexLower v hv, Option.map_some']
    · by_cases h2 : typ = 2
      · subst h2
        rw [if_neg h1, if_pos rfl, hpar, List.append_assoc, List.singleton_append,
          Option.some_bind,
          fromStr_params _ (hexLower_all_inCharset v hv) (hexLower_countEq v hv),
          hexDecode_hexLower v hv, Option.map_some']
      · rw [if_neg h1, if_neg h2]
        by_cases h8 : typ = 8
        · subst h8
          rw [if_neg (by simp), List.nil_append, Option.some_bind]
          by_cases hvnil : v = []
          · subst hvnil
            decide
          · rw [fromStr_noEq _ (escapeBytes_ne_nil v hvnil)
                (escapeBytes_all_inCharset v hv) (escapeBytes_countEq v hv),
              mkGeneral_escaped 8 v hv]
        · rw [if_pos h8, List.append_assoc, List.singleton_append, Option.some_bind,
            fromStr_typNum (decChars typ) (escapeBytes v) (decChars_digits typ)
              (decChars_ne_nil typ) (escapeBytes_all_inCharset v hv)
              (escapeBytes_countEq v hv) (by rw [digitsVal_decChars]; exact htyp),
            digitsVal_decChars, mkGeneral_escaped typ v hv]
  · intro v hvlen hv
    rw [toStr_fromBytes 1 v (by norm_num) hvlen, if_pos rfl]
  · intro v hvlen hv
    rw [toStr_fromBytes 2 v (by norm_num) hvlen, if_neg (by norm_num), if_pos rfl]
  · intro typ v htyp hvlen h1 h2 h8
    rw [toStr_fromBytes typ v htyp hvlen, if_neg h1, if_neg h2, if_pos h8]
  · intro b hb hu
    refine decodeByte_esc b ?_
    rw [litByte_eq_unreserved, hu]

/-- Witness for C4 at a concrete component: type 33, value bytes
`[37, 61, 97, 200]` (which URI-render as `%25`, `%3D`, `a`, `%C8`). -/
theorem c4_component_roundtrip_witness :
    (toStr (fromBytes 33 [37, 61, 97, 200])).bind fromStr
      = some (fromBytes 33 [37, 61, 97, 200]) :=
  c4_component_roundtrip.1 33 [37, 61, 97, 200] (by decide) (by decide) (by decide)

/-! ## Claim C7 -/

/-- Claim C7 (confirmed): `fromStr` parses one URI segment: the literal
prefixes `sha256digest=` and `params-sha256=` yield the two digest types
with the remainder decoded as hex; a leading `<integer>=` sets the component
type; an input with no '=' gets the generic type 8; and any input with a
character outside `CHARSET`, with two '=' characters, or with a malformed
percent-escape in its value part fails with an error (`none`). -/
theorem c7_from_str_parses :
    (∀ h, hexPairsOk h = true →
      fromStr ("sha256digest".toList ++ '=' :: h) = some (fromBytes 1 (hexDecodeV h)))
    ∧ (∀ h, hexPairsOk h = true →
      fromStr ("params-sha256".toList ++ '=' :: h) = some (fromBytes 2 (hexDecodeV h)))
    ∧ (∀ d rest, (∀ c ∈ d, isDigitB c = true) → d ≠ [] → digitsVal d < 2 ^ 64 →
      (∀ c ∈ rest, inCharset c = true ∧ c ≠ '=' ∧ c ≠ '%') →
      fromStr (d ++ '=' :: rest) = some (fromBytes (digitsVal d) (rest.map Char.toNat)))
    ∧ (∀ rest, (∀ c ∈ rest, inCharset c = true ∧ c ≠ '=' ∧ c ≠ '%') →
      fromStr rest = some (fromBytes 8 (rest.map Char.toNat)))
    ∧ (∀ val c, c ∈ val → inCharset c = false → fromStr val = none)
    ∧ (∀ val, 2 ≤ countCh '=' val → fromStr val = none)
    ∧ (∀ val, pctMalformed (afterEqPart val) = true → fromStr val = none) := by
  refine ⟨?_, ?_, ?_, ?_, ?_, ?_, ?_⟩
  · intro h hh
    have hhex := hexPairsOk_all_hex h hh
    rw [fromStr_sha h (List.all_eq_true.mpr fun c hc => isHexDigitB_inCharset c (hhex c hc))
        (countCh_eq_zero _ _ fun c hc => isHexDigitB_ne_eq c (hhex c hc)),
      hexDecode, if_pos hh, Option.map_some']
  · intro h hh
    have hhex := hexPairsOk_all_hex h hh
    rw [fromStr_params h (List.all_eq_true.mpr fun c hc => isHexDigitB_inCharset c (hhex c hc))
        (countCh_eq_zero _ _ fun c hc => isHexDigitB_ne_eq c (hhex c hc)),
      hexDecode, if_pos hh, Option.map_some']
  · intro d rest hd hne hlt hrest
    have hrc : rest.all inCharset = true := List.all_eq_true.mpr fun c hc => (hrest c hc).1
    have hre : countCh '=' rest = 0 := countCh_eq_zero _ _ fun c hc => (hrest c hc).2.1
    have hrp : countCh '%' rest = 0 := countCh_eq_zero _ _ fun c hc => (hrest c hc).2.2
    rw [fromStr_typNum d rest hd hne hrc hre hlt, mkGeneral_literal _ rest hrp]
  · intro rest hrest
    by_cases hne : rest = []
    · subst hne
      decide
    · have hrc : rest.all inCharset = true := List.all_eq_true.mpr fun c hc => (hrest c hc).1
      have hre : countCh '=' rest = 0 := countCh_eq_zero _ _ fun c hc => (hrest c hc).2.1
      have hrp : countCh '%' rest = 0 := countCh_eq_zero _ _ fun c hc => (hrest c hc).2.2
      rw [fromStr_noEq rest hne hrc hre, mkGeneral_literal 8 rest hrp]
  · intro val c hc hnc
    have hne : val ≠ [] := List.ne_nil_of_mem hc
    have hall : val.all inCharset = false := by
      rw [Bool.eq_false_iff]
      intro hall
      rw [List.all_eq_true.mp hall c hc] at hnc
      exact absurd hnc (by decide)
    rw [fromStr, if_neg hne, if_pos (by simp [hall])]
  · intro val hcnt
    have hne : val ≠ [] := by
      intro h
      subst h
      simp [countCh] at hcnt
    rw [fromStr, if_neg hne]
    by_cases hall : val.all inCharset = true
    · rw [if_neg (by simp [hall]), if_pos hcnt]
    · rw [if_pos (by simp [Bool.eq_false_iff.mpr hall])]
  · intro val hm
    by_cases hne : val = []
    · subst hne
      simp [afterEqPart, splitEq, pctMalformed] at hm
    · rw [fromStr, if_neg hne]
      by_cases hall : val.all inCharset = true
      · rw [if_neg (by simp [hall])]
        by_cases hcnt : 2 ≤ countCh '=' val
        · rw [if_pos hcnt]
        · rw [if_neg hcnt]
          match hsp : splitEq val with
          | none =>
            have hafter : afterEqPart val = val := by
              rw [afterEqPart, hsp]
            rw [hafter] at hm
            simp only [hsp]
            exact mkGeneral_malformed 8 val (countCh '%' val) hm le_rfl
          | some (typStr, rest) =>
            have hafter : afterEqPart val = rest := by
              rw [afterEqPart, hsp]
            rw [hafter] at hm
            have hveq : val = typStr ++ '=' :: rest := splitEq_some val typStr rest hsp
            have hge : countCh '%' rest ≤ countCh '%' val := by
              rw [hveq, countCh_append]
              simp only [countCh]
              rw [if_neg (by decide : ¬('=' = '%'))]
              omega
            simp only [hsp]
            by_cases hd1 : typStr = "sha256digest".toList
            · rw [if_pos hd1, hexDecode_none_of_malformed rest hm, Option.map_none']
            · rw [if_neg hd1]
              by_cases hd2 : typStr = "params-sha256".toList
              · rw [if_pos hd2, hexDecode_none_of_malformed rest hm, Option.map_none']
              · rw [if_neg hd2]
                match hpi : pyParseInt typStr with
                | none => simp
                | some t =>
                  simp only
                  by_cases hg : t < 0 ∨ (18446744073709551616 : Int) ≤ t
                  · rw [if_pos hg]
                  · rw [if_neg hg]
                    exact mkGeneral_malformed t.toNat rest (countCh '%' val) hm hge
      · rw [if_pos (by simp [Bool.eq_false_iff.mpr hall])]

/-- Witness for C7 on concrete segments: a digest segment parses to type 1,
and the malformed escape `"ab%4"` is rejected. -/
theorem c7_from_str_parses_witness :
    fromStr ("sha256digest".toList ++ '=' :: "ab0f".toList)
        = some (fromBytes 1 (hexDecodeV "ab0f".toList))
      ∧ fromStr "ab%4".toList = none :=
  ⟨c7_from_str_parses.1 "ab0f".toList (by decide),
   c7_from_str_parses.2.2.2.2.2.2 "ab%4".toList (by decide)⟩

/-! ## The NDNApp engine (src/ndn/app.py)

State-transition model of `NDNApp`.  Names are sequences of TLV-encoded
components; the two `NameTrie`s are modelled as association lists keyed by
the encoded name (the name_tree module is not under src/; its node types
and trie operations are modelled from the spec, sections 4.4 and 4.5).
Futures are identified by numbers; resolving a future is recorded as a
`(futureId, Outcome)` pair. -/

abbrev Bytes := List Nat

abbrev FormalName := List Bytes

/-- Interest parameters (`InterestParam`): the fields this model needs. -/
structure InterestParam where
  canBePfx : Bool := false
  lifetime : Option Nat := some 4000
  nonce : Option Nat := none
deriving DecidableEq, Repr

/-- Opaque decoded MetaInfo. -/
abbrev MetaInfo := Nat

/-- Signature pointers: this model only needs whether `signature_info`
is present. -/
structure SigPtrs where
  sigInfo : Option Bytes := none
deriving DecidableEq, Repr

/-- A validator: `await validator(name, sig)` as a boolean predicate. -/
abbrev Validator := FormalName → SigPtrs → Bool

/-- Terminal outcome delivered to one waiter's future. -/
inductive Outcome where
  | dataRes (name : FormalName) (meta : MetaInfo) (content : Option Bytes)
  | failedValidation (name : FormalName) (meta : MetaInfo) (content : Option Bytes)
  | nacked (reason : Nat)
  | interestTimeout
deriving DecidableEq, Repr

/-- Python exceptions of the engine that the claims mention. -/
inductive AppError where
  | networkError
  | duplicateReg
  | keyError
  | decodeError
deriving DecidableEq, Repr

/-- Modelled from the spec: `InterestTreeNode` (name_tree not in src/), the
PIT entry: pending waiters (futures with their Interest parameters) and the
per-entry validator field (spec section 3, PIT entry). -/
structure InterestTreeNode where
  waiters : List (Nat × InterestParam) := []
  validator : Option Validator := none

/-- Modelled from the spec: `PrefixTreeNode` (name_tree not in src/), the
registration entry: one handler and an optional validator (spec section 3,
Registration entry).  The handler is identified by a number. -/
structure PrefixTreeNode where
  callback : Option Nat := none
  validator : Option Validator := none

/-- An outbound transmission on the face. -/
inductive Wire where
  | interestPkt (name : FormalName) (prm : InterestParam) (appParam : Option Bytes)
  | raw (b : Bytes)
deriving DecidableEq, Repr

/-- The engine state: face liveness, the two tries, the default validators,
the params-digest checker, and the log of face sends. -/
structure AppState where
  running : Bool := true
  intTree : List (FormalName × InterestTreeNode) := []
  pfxTree : List (FormalName × PrefixTreeNode) := []
  dataValidator : Validator
  intValidator : Validator
  paramsChecker : Validator
  sent : List Wire := []

/-- Exact lookup in an association-list trie (first match). -/
def alookup (l : List (FormalName × α)) (k : FormalName) : Option α :=
  match l with
  | [] => none
  | (kk, v) :: t => if kk = k then some v else alookup t k

/-- Insert-or-replace in an association-list trie. -/
def ainsert (l : List (FormalName × α)) (k : FormalName) (v : α) :
    List (FormalName × α) :=
  match l with
  | [] => [(k, v)]
  | (kk, vv) :: t => if kk = k then (k, v) :: t else (kk, vv) :: ainsert t k v

/-- Delete a key from an association-list trie. -/
def aerase (l : List (FormalName × α)) (k : FormalName) : List (FormalName × α) :=
  l.filter (fun e => !(e.1 == k))

/-- Modelled from the spec: `make_interest` (encoding module not in src/):
builds the Interest packet and its final Name; when application parameters
are present, a parameters-digest component is appended to the name (spec
section 3, Interest; the digest component here binds the parameter bytes
as a type-2 component, an injective stand-in for SHA-256). -/
def makeInterest (name : FormalName) (prm : InterestParam) (appParam : Option Bytes) :
    Wire × FormalName :=
  match appParam with
  | none => (Wire.interestPkt name prm none, name)
  | some ap =>
    (Wire.interestPkt (name ++ [fromBytes 2 ap]) prm (some ap), name ++ [fromBytes 2 ap])

/-- Modelled from the spec: `InterestTreeNode.append_interest` (spec
section 4.5, express): append a waiter to the entry. -/
def InterestTreeNode.appendInterest (node : InterestTreeNode) (f : Nat)
    (prm : InterestParam) : InterestTreeNode :=
  { node with waiters := node.waiters ++ [(f, prm)] }

/-- Modelled from the spec: `InterestTreeNode.timeout` (spec section 4.5,
Timeout): remove the expiring waiter; report whether the waiter set became
empty (then the caller deletes the entry). -/
def InterestTreeNode.timeoutFut (node : InterestTreeNode) (f : Nat) :
    InterestTreeNode × Bool :=
  let ws := node.waiters.filter (fun w => !(w.1 == f))
  ({ node with waiters := ws }, ws.isEmpty)

/-- Modelled from the spec: `InterestTreeNode.satisfy` (spec sections 4.5 and
8): waiters whose Interest allowed prefix matching — or any waiter on an
exact match — receive the Data; the entry is reported clean. -/
def InterestTreeNode.satisfy (node : InterestTreeNode) (name : FormalName)
    (meta : MetaInfo) (content : Option Bytes) (isPfx : Bool) :
    List (Nat × Outcome) × Bool :=
  (node.waiters.filterMap (fun w =>
      if !isPfx || w.2.canBePfx then some (w.1, Outcome.dataRes name meta content)
      else none),
   true)

/-- Modelled from the spec: `InterestTreeNode.invalid` (spec sections 4.5 and
7, and the in-src evidence that `ValidationFailure` is a terminal outcome of
`express_interest` — app.py catches it around `await self.express_interest`):
every waiter receives a `ValidationFailure` notification carrying the
rejected Data, and the entry is reported clean ("Every satisfied/invalid
entry at or below the matched prefixes is removed"). -/
def InterestTreeNode.invalidData (node : InterestTreeNode) (name : FormalName)
    (meta : MetaInfo) (content : Option Bytes) : List (Nat × Outcome) × Bool :=
  (node.waiters.map (fun w => (w.1, Outcome.failedValidation name meta content)), true)

/-- Modelled from the spec: `InterestTreeNode.nack_interest` (spec section
4.5, Nack): all waiters are nacked with the reason code; entry removed. -/
def InterestTreeNode.nackInterest (node : InterestTreeNode) (reason : Nat) :
    List (Nat × Outcome) × Bool :=
  (node.waiters.map (fun w => (w.1, Outcome.nacked reason)), true)

/-- `NDNApp.express_interest` (src/ndn/app.py): raises `NetworkError` when
the face is not running; otherwise builds the Interest, `setdefault`s the
PIT entry at the final name, appends a waiter, overwrites the entry's
validator with this call's argument, and unconditionally sends the Interest
on the face.  Returns the new state and the final name. -/
def expressInterest (st : AppState) (name : FormalName) (appParam : Option Bytes)
    (validator : Option Validator) (prm : InterestParam) (futureId : Nat) :
    Except AppError (AppState × FormalName) :=
  if !st.running then .error .networkError
  else
    let pf := makeInterest name prm appParam
    let node := (alookup st.intTree pf.2).getD {}
    let node' := { node.appendInterest futureId prm with validator := validator }
    .ok ({ st with intTree := ainsert st.intTree pf.2 node',
                   sent := st.sent ++ [pf.1] }, pf.2)

/-- `NDNApp._wait_for_data`, timeout path (src/ndn/app.py): on expiry the
waiter is removed from the node; if that empties the node's waiter set the
entry is deleted from the interest tree; the caller's await raises
`InterestTimeout`. -/
def waitTimeout (st : AppState) (name : FormalName) (node : InterestTreeNode)
    (f : Nat) : AppState × Outcome :=
  let p := node.timeoutFut f
  (if p.2 then { st with intTree := aerase st.intTree name }
   else { st with intTree := ainsert st.intTree name p.1 },
   Outcome.interestTimeout)

/-- Modelled from the spec: `NameTrie.prefixes` (name_tree not in src/), spec
section 4.4 `iter_prefixes_of`: every ancestor of `name` (including `name`
itself) carrying a value, shortest first. -/
def prefixesOf (t : List (FormalName × α)) (name : FormalName) :
    List (FormalName × α) :=
  (List.range (name.length + 1)).filterMap
    (fun i => (alookup t (name.take i)).map (fun nd => (name.take i, nd)))

/-- The validator `_on_data` uses for an entry: the entry's validator if set,
else the app's default data validator (src/ndn/app.py line 193). -/
def effectiveValidator (node : InterestTreeNode) (st : AppState) : Validator :=
  node.validator.getD st.dataValidator

/-- `NDNApp._on_data` (src/ndn/app.py): for every PIT entry at a prefix of
the Data name, run the effective validator; satisfied or invalid entries
report clean and are deleted after the loop.  Returns the new state and
every future resolution. -/
def onData (st : AppState) (name : FormalName) (meta : MetaInfo)
    (content : Option Bytes) (sig : SigPtrs) : AppState × List (Nat × Outcome) :=
  let steps := (prefixesOf st.intTree name).map (fun pn =>
    if effectiveValidator pn.2 st name sig then
      (pn.1, pn.2.satisfy name meta content (decide (pn.1 ≠ name)))
    else
      (pn.1, pn.2.invalidData name meta content))
  let cleanList := (steps.filter (fun s => s.2.2)).map (fun s => s.1)
  ({ st with intTree := cleanList.foldl (fun t p => aerase t p) st.intTree },
   (steps.map (fun s => s.2.1)).flatten)

/-- `NDNApp._on_nack` (src/ndn/app.py): exact lookup of the entry, then all
waiters are nacked and the entry removed.  Modelled from the spec:
`NameTrie.__getitem__` (name_tree not in src/) reports an absent key by
raising `KeyError` — the Python mapping-subscript protocol of the
pygtrie-style trie that the in-src API (`setdefault`, `longest_prefix`
steps, `prefixes`, `itervalues`, `del`) matches; spec section 4.4 lets
absent-key operations report `NotFound`. -/
def onNack (st : AppState) (name : FormalName) (reason : Nat) :
    Except AppError (AppState × List (Nat × Outcome)) :=
  match alookup st.intTree name with
  | none => .error .keyError
  | some node =>
    let p := node.nackInterest reason
    .ok (if p.2 then { st with intTree := aerase st.intTree name } else st, p.1)

/-- Modelled from the spec: `NameTrie.longest_prefix` (name_tree not in
src/), spec section 4.4: the deepest ancestor of `name` carrying a value,
or absent. -/
def longestPfx (t : List (FormalName × α)) (name : FormalName) :
    Option (FormalName × α) :=
  (prefixesOf t name).getLast?

/-- One observable step of inbound-Interest processing. -/
inductive Event where
  | checkerCall (ok : Bool)
  | validatorCall (ok : Bool)
  | handlerCall (h : Nat) (name : FormalName) (prm : InterestParam)
      (appParam : Option Bytes)
deriving DecidableEq, Repr

/-- Signature-validation-and-dispatch tail of `_on_interest`
(src/ndn/app.py, after the params-digest guard): when a signature is
present, the registration's validator (or the default interest validator)
must accept before the single handler call; unsigned Interests go straight
to the handler. -/
def onInterestTail (st : AppState) (node : PrefixTreeNode) (name : FormalName)
    (prm : InterestParam) (appParam : Option Bytes) (sig : SigPtrs) : List Event :=
  if sig.sigInfo.isSome then
    if node.validator.getD st.intValidator name sig then
      [Event.validatorCall true, Event.handlerCall (node.callback.getD 0) name prm appParam]
    else [Event.validatorCall false]
  else [Event.handlerCall (node.callback.getD 0) name prm appParam]

/-- `NDNApp._on_interest` (src/ndn/app.py): longest-prefix registration
lookup (drop when none); when application parameters or a signature are
present, the mandatory `params_sha256_checker` structural guard runs first
(modelled as the state's `paramsChecker` predicate, since
security/digest_validator is not in src/) and a failure drops the Interest
before any validator or handler; then the signature/validator/handler tail.
Returns the trace of checker, validator and handler invocations. -/
def onInterest (st : AppState) (name : FormalName) (prm : InterestParam)
    (appParam : Option Bytes) (sig : SigPtrs) : List Event :=
  match longestPfx st.pfxTree name with
  | none => []
  | some pn =>
    if appParam.isSome || sig.sigInfo.isSome then
      if !st.paramsChecker name sig then [Event.checkerCall false]
      else Event.checkerCall true :: onInterestTail st pn.2 name prm appParam sig
    else onInterestTail st pn.2 name prm appParam sig

/-- `NDNApp.register`, storage step (src/ndn/app.py): `setdefault` a node at
the prefix, raise `ValueError` (duplicate registration) if a handler is
already installed — before storing anything — else store the handler and,
only when truthy, the validator.  The subsequent forwarder-registration
Interest exchange is outside this model. -/
def registerRoute (st : AppState) (name : FormalName) (f : Nat)
    (validator : Option Validator) : Except AppError AppState :=
  let node := (alookup st.pfxTree name).getD {}
  if node.callback.isSome then .error .duplicateReg
  else
    let node' : PrefixTreeNode :=
      { node with callback := some f,
                  validator := if validator.isSome then validator else node.validator }
    .ok { st with pfxTree := ainsert st.pfxTree name node' }

/-- `NDNApp.put_raw_packet` (src/ndn/app.py): raises `NetworkError` when the
face is not running; otherwise sends the raw buffer on the face. -/
def putRawPacket (st : AppState) (data : Bytes) : Except AppError AppState :=
  if !st.running then .error .networkError
  else .ok { st with sent := st.sent ++ [Wire.raw data] }

/-- An inbound frame as `_receive` sees it: the outer type together with the
result of the encoding module's parse attempt (the parser itself is not in
src/; a parse that raises is `none`). -/
inductive RxPacket where
  | interestRx (decoded : Option (FormalName × InterestParam × Option Bytes × SigPtrs))
  | dataRx (decoded : Option (FormalName × MetaInfo × Option Bytes × SigPtrs))
  | nackRx (decoded : Option (FormalName × Nat))

/-- `NDNApp._receive` (src/ndn/app.py): dispatch on the outer packet type;
the surrounding `try` catches only `DecodeError` (logged and dropped as
`ok`); any other exception propagates out of the receive callback. -/
def receive (st : AppState) (pkt : RxPacket) :
    Except AppError (AppState × List (Nat × Outcome) × List Event) :=
  let res : Except AppError (AppState × List (Nat × Outcome) × List Event) :=
    match pkt with
    | .interestRx none => .error .decodeError
    | .interestRx (some (n, p, a, sg)) => .ok (st, [], onInterest st n p a sg)
    | .dataRx none => .error .decodeError
    | .dataRx (some (n, m, c, sg)) =>
      let r := onData st n m c sg
      .ok (r.1, r.2, [])
    | .nackRx none => .error .decodeError
    | .nackRx (some (n, reason)) => (onNack st n reason).map (fun x => (x.1, x.2, []))
  match res with
  | .error .decodeError => .ok (st, [], [])
  | r => r

/-! ## Association-list trie lemmas -/

theorem alookup_ainsert_self (l : List (FormalName × α)) (k : FormalName) (v : α) :
    alookup (ainsert l k v) k = some v := by
  induction l with
  | nil => simp [ainsert, alookup]
  | cons e t ih =>
    by_cases h : e.1 = k
    · simp [ainsert, h, alookup]
    · simp [ainsert, h, alookup, ih]

theorem alookup_ainsert_ne (l : List (FormalName × α)) (k k' : FormalName) (v : α)
    (h : k' ≠ k) : alookup (ainsert l k v) k' = alookup l k' := by
  induction l with
  | nil =>
    simp only [ainsert, alookup]
    rw [if_neg (fun he => h he.symm)]
  | cons e t ih =>
    by_cases he : e.1 = k
    · rw [show ainsert (e :: t) k v = (k, v) :: t by simp [ainsert, he]]
      have hek : e.1 ≠ k' := by
        rw [he]
        exact fun hx => h hx.symm
      simp only [alookup]
      rw [if_neg (fun hx => h hx.symm : ¬k = k'), if_neg hek]
    · rw [show ainsert (e :: t) k v = e :: ainsert t k v by simp [ainsert, he]]
      simp only [alookup, ih]

theorem alookup_aerase (l : List (FormalName × α)) (k k' : FormalName) :
    alookup (aerase l k) k' = if k' = k then none else alookup l k' := by
  induction l with
  | nil => simp [aerase, alookup]
  | cons e t ih =>
    by_cases he : e.1 = k
    · rw [show aerase (e :: t) k = aerase t k by simp [aerase, List.filter_cons, he], ih]
      by_cases hk : k' = k
      · simp [hk]
      · have hek : e.1 ≠ k' := by
          rw [he]
          exact fun hx => hk hx.symm
        simp only [if_neg hk, alookup, if_neg hek]
    · rw [show aerase (e :: t) k = e :: aerase t k by simp [aerase, List.filter_cons, he]]
      simp only [alookup, ih]
      by_cases hek : e.1 = k' <;> by_cases hk : k' = k
      · exact absurd (hek.trans hk) he
      · simp [hek, hk]
      · simp [hek, hk, he]
      · simp [hek, hk]

theorem alookup_foldl_aerase_none (cl : List FormalName) (t : List (FormalName × α))
    (k : FormalName) (h : alookup t k = none) :
    alookup (cl.foldl (fun t p => aerase t p) t) k = none := by
  induction cl generalizing t with
  | nil => exact h
  | cons p cl ih =>
    simp only [List.foldl_cons]
    refine ih (aerase t p) ?_
    rw [alookup_aerase]
    by_cases hk : k = p <;> simp [hk, h]

theorem alookup_foldl_aerase_mem (cl : List FormalName) (t : List (FormalName × α))
    (k : FormalName) (h : k ∈ cl) :
    alookup (cl.foldl (fun t p => aerase t p) t) k = none := by
  induction cl generalizing t with
  | nil => simp at h
  | cons p cl ih =>
    simp only [List.foldl_cons]
    rcases List.mem_cons.mp h with rfl | h'
    · exact alookup_foldl_aerase_none cl (aerase t k) k (by rw [alookup_aerase]; simp)
    · exact ih (aerase t p) h'

theorem prefixesOf_single (t : List (FormalName × α)) (name : FormalName)
    (node : α) (h : alookup t name = some node)
    (hothers : ∀ i, i < name.length → alookup t (name.take i) = none) :
    prefixesOf t name = [(name, node)] := by
  unfold prefixesOf
  rw [List.range_succ, List.filterMap_append]
  have h1 : (List.range name.length).filterMap
      (fun i => (alookup t (name.take i)).map (fun nd => (name.take i, nd))) = [] := by
    rw [List.filterMap_eq_nil_iff]
    intro i hi
    rw [hothers i (List.mem_range.mp hi)]
    rfl
  rw [h1, List.nil_append]
  simp [List.take_length, h]

theorem prefixesOf_mem (t : List (FormalName × α)) (name k : FormalName)
    (node : α) (hk : alookup t k = some node) (hpre : k = name.take k.length)
    (hlen : k.length ≤ name.length) : (k, node) ∈ prefixesOf t name := by
  unfold prefixesOf
  rw [List.mem_filterMap]
  refine ⟨k.length, by rw [List.mem_range]; omega, ?_⟩
  rw [← hpre, hk]
  rfl

/-! ## Concrete states for witnesses and counterexamples -/

/-- The accept-everything validator. -/
def acceptAll : Validator := fun _ _ => true

/-- The reject-everything validator. -/
def rejectAll : Validator := fun _ _ => false

/-- A fresh running engine with empty tries. -/
def st0 : AppState :=
  { dataValidator := acceptAll, intValidator := acceptAll, paramsChecker := acceptAll }

/-- Default Interest parameters. -/
def prm0 : InterestParam := {}

/-- The one-component name `/a`. -/
def nmA : FormalName := [[8, 1, 97]]

/-- Run one `expressInterest` (no app parameters, no validator) and keep the
resulting state; on error keep the old state. -/
def exprStep (st : AppState) (name : FormalName) (f : Nat) : AppState :=
  match expressInterest st name none none prm0 f with
  | .ok p => p.1
  | .error _ => st

/-! ## Claim C1 -/

/-- Claim C1, counterexample: from a fresh engine, two `express_interest`
calls for the identical final Name made before either resolves put TWO
Interest packets on the face (`face.send` is unconditional in
src/ndn/app.py), not exactly one as the claim states. -/
theorem c1_counterexample :
    (exprStep (exprStep st0 nmA 0) nmA 1).sent.length = 2 ∧
    (exprStep (exprStep st0 nmA 0) nmA 1).sent.length ≠ 1 := by
  constructor
  · rfl
  · decide

/-- Claim C1 (corrected): two `express_interest` calls for the identical
final Name before either resolves share one aggregated PIT entry (the
second call appends a waiter to the first call's entry), and when a
matching Data arrives both callers resolve with the same outcome — but
each call sends its own Interest packet on the face, so two packets are
transmitted, not one. -/
theorem c1_aggregation :
    ∀ (st : AppState) (nm : FormalName) (prm1 prm2 : InterestParam)
      (v1 v2 : Option Validator) (f1 f2 : Nat) (meta : MetaInfo)
      (content : Option Bytes) (sig : SigPtrs),
      st.running = true →
      (∀ i, i ≤ nm.length → alookup st.intTree (nm.take i) = none) →
      ∃ st1 st2,
        expressInterest st nm none v1 prm1 f1 = .ok (st1, nm) ∧
        expressInterest st1 nm none v2 prm2 f2 = .ok (st2, nm) ∧
        st2.sent = st.sent ++ [Wire.interestPkt nm prm1 none, Wire.interestPkt nm prm2 none] ∧
        alookup st2.intTree nm
          = some { waiters := [(f1, prm1), (f2, prm2)], validator := v2 } ∧
        ((v2.getD st.dataValidator) nm sig = true →
          (onData st2 nm meta content sig).2
            = [(f1, Outcome.dataRes nm meta content), (f2, Outcome.dataRes nm meta content)]) := by
  intro st nm prm1 prm2 v1 v2 f1 f2 meta content sig hr hempty
  have hnone : alookup st.intTree nm = none := by
    have := hempty nm.length le_rfl
    rwa [List.take_length] at this
  set n1 : InterestTreeNode := { waiters := [(f1, prm1)], validator := v1 } with hn1
  set n2 : InterestTreeNode := { waiters := [(f1, prm1), (f2, prm2)], validator := v2 } with hn2
  set p1 := Wire.interestPkt nm prm1 none with hp1
  set p2 := Wire.interestPkt nm prm2 none with hp2
  refine ⟨{ st with intTree := ainsert st.intTree nm n1, sent := st.sent ++ [p1] },
          { st with intTree := ainsert (ainsert st.intTree nm n1) nm n2,
                    sent := (st.sent ++ [p1]) ++ [p2] }, ?_, ?_, ?_, ?_, ?_⟩
  · simp [expressInterest, hr, makeInterest, hnone, InterestTreeNode.appendInterest, hn1]
  · simp [expressInterest, hr, makeInterest, alookup_ainsert_self,
      InterestTreeNode.appendInterest, hn1, hn2]
  · simp
  · exact alookup_ainsert_self _ nm n2
  · intro hv
    have hsingle : prefixesOf (ainsert (ainsert st.intTree nm n1) nm n2) nm = [(nm, n2)] := by
      refine prefixesOf_single _ nm n2 (alookup_ainsert_self _ nm n2) ?_
      intro i hi
      have hne : nm.take i ≠ nm := by
        intro h
        have := congrArg List.length h
        rw [List.length_take] at this
        omega
      rw [alookup_ainsert_ne _ _ _ _ hne, alookup_ainsert_ne _ _ _ _ hne]
      exact hempty i (by omega)
    unfold onData
    rw [hsingle]
    have heff : effectiveValidator n2 { st with
        intTree := ainsert (ainsert st.intTree nm n1) nm n2,
        sent := (st.sent ++ [p1]) ++ [p2] } nm sig = true := by
      cases v2 with
      | none => simpa [effectiveValidator, hn2] using hv
      | some v => simpa [effectiveValidator, hn2] using hv
    simp only [List.map_cons, List.map_nil, heff, if_pos trivial]
    simp [InterestTreeNode.satisfy, hn2]

/-- Witness for the corrected C1 at a fresh engine and the name `/a`. -/
theorem c1_aggregation_witness :
    ∃ st1 st2,
      expressInterest st0 nmA none none prm0 0 = .ok (st1, nmA) ∧
      expressInterest st1 nmA none none prm0 1 = .ok (st2, nmA) ∧
      st2.sent = st0.sent ++ [Wire.interestPkt nmA prm0 none, Wire.interestPkt nmA prm0 none] ∧
      alookup st2.intTree nmA
        = some { waiters := [(0, prm0), (1, prm0)], validator := none } ∧
      ((Option.none.getD st0.dataValidator) nmA {} = true →
        (onData st2 nmA 0 none {}).2
          = [(0, Outcome.dataRes nmA 0 none), (1, Outcome.dataRes nmA 0 none)]) :=
  c1_aggregation st0 nmA prm0 prm0 none none 0 1 0 none {} rfl (fun i _ => rfl)

/-! ## Claim C2 -/

/-- A running engine with one pending entry at `/a` whose validator rejects
everything. -/
def stC2 : AppState :=
  { st0 with intTree := [(nmA, { waiters := [(0, prm0)], validator := some rejectAll })] }

/-- Claim C2, counterexample: a Data whose name matches the pending entry
but whose validator rejects it does NOT leave the entry pending — the entry
is removed from the interest tree and its waiter is resolved with a
`ValidationFailure` notification. -/
theorem c2_counterexample :
    alookup (onData stC2 nmA 0 none {}).1.intTree nmA = none ∧
    (onData stC2 nmA 0 none {}).2 = [(0, Outcome.failedValidation nmA 0 none)] := by
  constructor <;> rfl

/-- Claim C2 (corrected): on arrival of a Data whose name matches a pending
entry but whose effective validator rejects the packet, the entry is not
satisfied with the Data: every waiter receives a `ValidationFailure`
(invalid) notification instead, and the entry IS removed from the interest
tree (it does not remain pending). -/
theorem c2_invalid_data :
    ∀ (st : AppState) (entryName dataName : FormalName) (node : InterestTreeNode)
      (meta : MetaInfo) (content : Option Bytes) (sig : SigPtrs),
      alookup st.intTree entryName = some node →
      entryName = dataName.take entryName.length →
      entryName.length ≤ dataName.length →
      effectiveValidator node st dataName sig = false →
      (∀ w ∈ node.waiters,
        (w.1, Outcome.failedValidation dataName meta content)
          ∈ (onData st dataName meta content sig).2) ∧
      alookup (onData st dataName meta content sig).1.intTree entryName = none := by
  intro st entryName dataName node meta content sig hlook hpre hlen hval
  have hmem : (entryName, node) ∈ prefixesOf st.intTree dataName :=
    prefixesOf_mem _ _ _ _ hlook hpre hlen
  have hsmem : (entryName, node.invalidData dataName meta content) ∈
      (prefixesOf st.intTree dataName).map (fun pn =>
        if effectiveValidator pn.2 st dataName sig then
          (pn.1, pn.2.satisfy dataName meta content (decide (pn.1 ≠ dataName)))
        else (pn.1, pn.2.invalidData dataName meta content)) := by
    refine List.mem_map.mpr ⟨(entryName, node), hmem, ?_⟩
    simp [hval]
  constructor
  · intro w hw
    simp only [onData]
    apply List.mem_flatten.mpr
    refine ⟨(node.invalidData dataName meta content).1, ?_, ?_⟩
    · exact List.mem_map.mpr ⟨(entryName, node.invalidData dataName meta content), hsmem, rfl⟩
    · exact List.mem_map.mpr ⟨w, hw, rfl⟩
  · simp only [onData]
    apply alookup_foldl_aerase_mem
    refine List.mem_map.mpr ⟨(entryName, node.invalidData dataName meta content), ?_, rfl⟩
    refine List.mem_filter.mpr ⟨hsmem, ?_⟩
    simp [InterestTreeNode.invalidData]

/-- Witness for the corrected C2 at the concrete rejecting entry. -/
theorem c2_invalid_data_witness :
    ((0, prm0).1, Outcome.failedValidation nmA 0 none) ∈ (onData stC2 nmA 0 none {}).2 ∧
    alookup (onData stC2 nmA 0 none {}).1.intTree nmA = none := by
  have h := c2_invalid_data stC2 nmA nmA
    { waiters := [(0, prm0)], validator := some rejectAll } 0 none {}
    rfl (by rw [List.take_length]) le_rfl rfl
  exact ⟨h.1 (0, prm0) (by simp), h.2⟩

/-! ## Claim C3 -/

/-- Is an event a handler invocation? -/
def isHandlerEv : Event → Bool
  | Event.handlerCall _ _ _ _ => true
  | _ => false

/-- Claim C3 (confirmed), for an Interest that matches a registered prefix
whose node carries handler `h`: (i) when application parameters or a
signature are present, the params-digest structural check runs first and on
failure the trace is only the failed check — no validator, no handler;
(ii) when a signature is present and the digest check passes, the
registration's validator (or the default interest validator) runs and the
handler is invoked exactly when it accepts; (iii) an unsigned Interest with
no application parameters goes straight to the handler with no checker or
validator call; (iv) any handler event carries exactly
`(name, prm, appParam)` and the registered handler; (v) at most one handler
call happens. -/
theorem c3_on_interest :
    ∀ (st : AppState) (name : FormalName) (prm : InterestParam) (appParam : Option Bytes)
      (sig : SigPtrs) (pn : FormalName × PrefixTreeNode) (h : Nat),
      longestPfx st.pfxTree name = some pn →
      pn.2.callback = some h →
      (((appParam.isSome || sig.sigInfo.isSome) = true → st.paramsChecker name sig = false →
        onInterest st name prm appParam sig = [Event.checkerCall false]) ∧
      (sig.sigInfo.isSome = true → st.paramsChecker name sig = true →
        onInterest st name prm appParam sig =
          Event.checkerCall true ::
            Event.validatorCall (pn.2.validator.getD st.intValidator name sig) ::
            (if pn.2.validator.getD st.intValidator name sig then
              [Event.handlerCall h name prm appParam]
            else [])) ∧
      (appParam = none → sig.sigInfo = none →
        onInterest st name prm appParam sig = [Event.handlerCall h name prm appParam]) ∧
      (∀ e ∈ onInterest st name prm appParam sig, isHandlerEv e = true →
        e = Event.handlerCall h name prm appParam) ∧
      (onInterest st name prm appParam sig).countP isHandlerEv ≤ 1) := by
  intro st name prm appParam sig pn h hlook hcb
  have htail : sig.sigInfo.isSome = true →
      onInterestTail st pn.2 name prm appParam sig =
        Event.validatorCall (pn.2.validator.getD st.intValidator name sig) ::
          (if pn.2.validator.getD st.intValidator name sig then
            [Event.handlerCall h name prm appParam]
          else []) := by
    intro hs
    unfold onInterestTail
    rw [if_pos hs, hcb]
    by_cases hv : pn.2.validator.getD st.intValidator name sig <;> simp [hv]
  have htail2 : sig.sigInfo.isSome = false →
      onInterestTail st pn.2 name prm appParam sig
        = [Event.handlerCall h name prm appParam] := by
    intro hs
    unfold onInterestTail
    rw [if_neg (by simp [hs]), hcb]
    rfl
  have hforms : onInterest st name prm appParam sig = [Event.checkerCall false] ∨
      onInterest st name prm appParam sig
        = Event.checkerCall true :: onInterestTail st pn.2 name prm appParam sig ∨
      onInterest st name prm appParam sig = onInterestTail st pn.2 name prm appParam sig := by
    simp only [onInterest, hlook]
    by_cases hg : (appParam.isSome || sig.sigInfo.isSome) = true
    · rw [if_pos hg]
      by_cases hc : st.paramsChecker name sig
      · rw [if_neg (by simp [hc])]
        right; left; rfl
      · rw [if_pos (by simp [Bool.eq_false_iff.mpr hc])]
        left; rfl
    · rw [if_neg hg]
      right; right; rfl
  refine ⟨?_, ?_, ?_, ?_, ?_⟩
  · intro hg hc
    simp only [onInterest, hlook]
    rw [if_pos hg, if_pos (by simp [hc])]
  · intro hs hc
    simp only [onInterest, hlook]
    rw [if_pos (by simp [hs]), if_neg (by simp [hc]), htail hs]
  · intro ha hs
    simp only [onInterest, hlook]
    rw [if_neg (by simp [ha, hs]), htail2 (by simp [hs])]
  · intro e he hhe
    have hT : ∀ e ∈ onInterestTail st pn.2 name prm appParam sig, isHandlerEv e = true →
        e = Event.handlerCall h name prm appParam := by
      intro e' he' hhe'
      by_cases hs : sig.sigInfo.isSome = true
      · rw [htail hs] at he'
        rcases List.mem_cons.mp he' with rfl | he''
        · simp [isHandlerEv] at hhe'
        · by_cases hv : pn.2.validator.getD st.intValidator name sig
          · rw [if_pos hv] at he''
            simpa using he''
          · rw [if_neg hv] at he''
            simp at he''
      · rw [htail2 (by simp at hs; simp [hs])] at he'
        simpa using he'
    rcases hforms with hf | hf | hf
    · rw [hf] at he
      simp only [List.mem_singleton] at he
      rw [he] at hhe
      simp [isHandlerEv] at hhe
    · rw [hf] at he
      rcases List.mem_cons.mp he with rfl | he'
      · simp [isHandlerEv] at hhe
      · exact hT e he' hhe
    · rw [hf] at he
      exact hT e he hhe
  · have hTc : (onInterestTail st pn.2 name prm appParam sig).countP isHandlerEv ≤ 1 := by
      by_cases hs : sig.sigInfo.isSome = true
      · rw [htail hs]
        by_cases hv : pn.2.validator.getD st.intValidator name sig
        · rw [if_pos hv]
          simp [List.countP_cons, isHandlerEv]
        · rw [if_neg hv]
          simp [List.countP_cons, isHandlerEv]
      · rw [htail2 (by simp at hs; simp [hs])]
        simp [List.countP_cons, isHandlerEv]
    rcases hforms with hf | hf | hf <;> rw [hf]
    · simp [List.countP_cons, isHandlerEv]
    · simpa [List.countP_cons, isHandlerEv] using hTc
    · exact hTc

/-- Witness for C3: a fresh engine with `/a` registered to handler 7; an
unsigned Interest with no app parameters calls the handler directly. -/
theorem c3_on_interest_witness :
    onInterest { st0 with pfxTree := [(nmA, { callback := some 7 })] } nmA prm0 none {}
      = [Event.handlerCall 7 nmA prm0 none] :=
  (c3_on_interest { st0 with pfxTree := [(nmA, { callback := some 7 })] } nmA prm0 none {}
    (nmA, { callback := some 7 }) 7 (by rfl) rfl).2.2.1 rfl rfl

/-! ## Claim C5 -/

/-- Claim C5 (confirmed): when a waiter's lifetime expires, the caller's
await raises `InterestTimeout`; the entry is deleted from the interest tree
exactly when the expiring waiter was the entry's last remaining waiter
(every waiter in the entry carries the expiring future), and otherwise the
entry remains, keyed at the same name, holding the remaining waiters. -/
theorem c5_timeout :
    ∀ (st : AppState) (name : FormalName) (node : InterestTreeNode) (f : Nat),
      alookup st.intTree name = some node →
      (waitTimeout st name node f).2 = Outcome.interestTimeout ∧
      (alookup (waitTimeout st name node f).1.intTree name = none ↔
        ∀ w ∈ node.waiters, w.1 = f) ∧
      ((∃ w ∈ node.waiters, w.1 ≠ f) →
        alookup (waitTimeout st name node f).1.intTree name
          = some { node with waiters := node.waiters.filter (fun w => !(w.1 == f)) }) := by
  intro st name node f hlook
  have hfst : (waitTimeout st name node f).1 =
      if (node.waiters.filter (fun w => !(w.1 == f))).isEmpty then
        { st with intTree := aerase st.intTree name }
      else
        { st with intTree := ainsert st.intTree name ({ node with
            waiters := node.waiters.filter (fun w => !(w.1 == f)) }) } := rfl
  have hsnd : (waitTimeout st name node f).2 = Outcome.interestTimeout := rfl
  rw [hfst, hsnd]
  by_cases he : (node.waiters.filter (fun w => !(w.1 == f))).isEmpty = true
  · have hnil : node.waiters.filter (fun w => !(w.1 == f)) = [] :=
      List.isEmpty_iff.mp he
    rw [if_pos he]
    refine ⟨rfl, ?_, ?_⟩
    · rw [alookup_aerase, if_pos rfl]
      constructor
      · intro _ w hw
        have hkeep := List.filter_eq_nil_iff.mp hnil w hw
        simpa using hkeep
      · intro _
        rfl
    · rintro ⟨w, hw, hne⟩
      exfalso
      have : w ∈ node.waiters.filter (fun w => !(w.1 == f)) :=
        List.mem_filter.mpr ⟨hw, by simp [hne]⟩
      rw [hnil] at this
      simp at this
  · have hne : node.waiters.filter (fun w => !(w.1 == f)) ≠ [] := by
      simpa [List.isEmpty_iff] using he
    rw [if_neg he]
    refine ⟨rfl, ?_, fun _ => alookup_ainsert_self _ _ _⟩
    rw [alookup_ainsert_self]
    constructor
    · intro hcontra
      simp at hcontra
    · intro hall
      exfalso
      refine hne (List.filter_eq_nil_iff.mpr ?_)
      intro w hw
      simp [hall w hw]

/-- Witness for C5: a two-waiter entry; future 0 times out, future 1 keeps
the entry alive. -/
theorem c5_timeout_witness :
    (waitTimeout
      { st0 with intTree := [(nmA, { waiters := [(0, prm0), (1, prm0)] })] } nmA
      { waiters := [(0, prm0), (1, prm0)] } 0).2 = Outcome.interestTimeout ∧
    (alookup (waitTimeout
      { st0 with intTree := [(nmA, { waiters := [(0, prm0), (1, prm0)] })] } nmA
      { waiters := [(0, prm0), (1, prm0)] } 0).1.intTree nmA = none ↔
        ∀ w ∈ ([(0, prm0), (1, prm0)] : List (Nat × InterestParam)), w.1 = 0) ∧
    ((∃ w ∈ ([(0, prm0), (1, prm0)] : List (Nat × InterestParam)), w.1 ≠ 0) →
      alookup (waitTimeout
        { st0 with intTree := [(nmA, { waiters := [(0, prm0), (1, prm0)] })] } nmA
        { waiters := [(0, prm0), (1, prm0)] } 0).1.intTree nmA
        = some { waiters := ([(0, prm0), (1, prm0)] :
            List (Nat × InterestParam)).filter (fun w => !(w.1 == 0)) }) :=
  c5_timeout { st0 with intTree := [(nmA, { waiters := [(0, prm0), (1, prm0)] })] }
    nmA { waiters := [(0, prm0), (1, prm0)] } 0 rfl

/-! ## Claim C6 -/

/-- Claim C6 (confirmed): registering a prefix at which a handler is already
installed raises the duplicate-registration error before anything is
stored; nothing is returned, so the first registration's handler and
validator are untouched. -/
theorem c6_duplicate_registration :
    ∀ (st : AppState) (name : FormalName) (node : PrefixTreeNode) (h0 f : Nat)
      (v : Option Validator),
      alookup st.pfxTree name = some node →
      node.callback = some h0 →
      registerRoute st name f v = .error .duplicateReg := by
  intro st name node h0 f v hlook hcb
  unfold registerRoute
  rw [hlook]
  simp only [Option.getD_some]
  rw [if_pos (by rw [hcb]; rfl)]

/-- Witness for C6: registering `/a` twice fails the second call. -/
theorem c6_duplicate_registration_witness :
    registerRoute { st0 with pfxTree := [(nmA, { callback := some 7 })] } nmA 9 none
      = .error .duplicateReg :=
  c6_duplicate_registration { st0 with pfxTree := [(nmA, { callback := some 7 })] }
    nmA { callback := some 7 } 7 9 none rfl rfl

/-! ## Claim C8 -/

/-- Claim C8 (confirmed): when the face is not running, both
`put_raw_packet` and `express_interest` raise `NetworkError` synchronously;
the error is returned before any Interest is built, any PIT entry created,
or anything sent, so the state (including the send log) is unchanged. -/
theorem c8_network_error :
    ∀ (st : AppState) (data : Bytes) (name : FormalName) (appParam : Option Bytes)
      (v : Option Validator) (prm : InterestParam) (f : Nat),
      st.running = false →
      putRawPacket st data = .error .networkError ∧
      expressInterest st name appParam v prm f = .error .networkError := by
  intro st data name appParam v prm f hr
  constructor
  · unfold putRawPacket
    rw [if_pos (by rw [hr]; rfl)]
  · unfold expressInterest
    rw [if_pos (by rw [hr]; rfl)]

/-- Witness for C8 on a stopped engine. -/
theorem c8_network_error_witness :
    putRawPacket { st0 with running := false } [1, 2, 3] = .error .networkError ∧
    expressInterest { st0 with running := false } nmA none none prm0 0
      = .error .networkError :=
  c8_network_error { st0 with running := false } [1, 2, 3] nmA none none prm0 0 rfl

/-! ## Claim C9 -/

/-- Claim C9 (confirmed): `express_interest` unconditionally stores its
validator argument into the PIT entry: when a second expression aggregates
onto an existing entry, the later call's validator (including `none`)
replaces whatever validator the entry had, and `_on_data`'s effective
validator for the entry becomes the later argument (falling back to the
default data validator when it is `none`). -/
theorem c9_validator_overwrite :
    ∀ (st : AppState) (name : FormalName) (appParam : Option Bytes)
      (node : InterestTreeNode) (v2 : Option Validator) (prm : InterestParam) (f : Nat),
      st.running = true →
      alookup st.intTree (makeInterest name prm appParam).2 = some node →
      ∃ st',
        expressInterest st name appParam v2 prm f
          = .ok (st', (makeInterest name prm appParam).2) ∧
        alookup st'.intTree (makeInterest name prm appParam).2
          = some { waiters := node.waiters ++ [(f, prm)], validator := v2 } ∧
        effectiveValidator { waiters := node.waiters ++ [(f, prm)], validator := v2 } st
          = v2.getD st.dataValidator ∧
        (v2 = none →
          effectiveValidator { waiters := node.waiters ++ [(f, prm)], validator := v2 } st
            = st.dataValidator) := by
  intro st name appParam node v2 prm f hr hlook
  refine ⟨{ st with
      intTree := ainsert st.intTree (makeInterest name prm appParam).2
        { waiters := node.waiters ++ [(f, prm)], validator := v2 },
      sent := st.sent ++ [(makeInterest name prm appParam).1] }, ?_, ?_, ?_, ?_⟩
  · unfold expressInterest
    rw [if_neg (by rw [hr]; simp)]
    simp [hlook, InterestTreeNode.appendInterest]
  · exact alookup_ainsert_self _ _ _
  · rfl
  · intro hv
    subst hv
    rfl

/-- Witness for C9: the second expression replaces a rejecting validator
with `none`, so matching falls back to the default data validator. -/
theorem c9_validator_overwrite_witness :
    ∃ st',
      expressInterest stC2 nmA none none prm0 1 = .ok (st', nmA) ∧
      alookup st'.intTree nmA
        = some { waiters := [(0, prm0), (1, prm0)], validator := none } ∧
      effectiveValidator { waiters := [(0, prm0), (1, prm0)], validator := none } stC2
        = Option.none.getD stC2.dataValidator ∧
      ((none : Option Validator) = none →
        effectiveValidator { waiters := [(0, prm0), (1, prm0)], validator := none } stC2
          = stC2.dataValidator) :=
  c9_validator_overwrite stC2 nmA none
    { waiters := [(0, prm0)], validator := some rejectAll } none prm0 1 rfl rfl

/-! ## Claim C10 -/

/-- Claim C10 (confirmed): a well-formed Nack for a name with no entry in
the interest tree makes `_on_nack`'s exact lookup raise a missing-key error,
and `_receive` catches only `DecodeError`, so the receive callback
propagates the exception instead of logging and dropping the packet. -/
theorem c10_nack_missing_entry :
    ∀ (st : AppState) (name : FormalName) (reason : Nat),
      alookup st.intTree name = none →
      receive st (RxPacket.nackRx (some (name, reason))) = .error .keyError := by
  intro st name reason h
  have h1 : onNack st name reason = .error .keyError := by
    unfold onNack
    rw [h]
  simp [receive, h1, Except.map]

/-- Witness for C10: a Nack for `/a` on a fresh engine with an empty
interest tree crashes the receive path with the missing-key error. -/
theorem c10_nack_missing_entry_witness :
    receive st0 (RxPacket.nackRx (some (nmA, 100))) = .error .keyError :=
  c10_nack_missing_entry st0 nmA 100 rfl

end Ndn
